import Mathlib

/-!
Verification of the end-to-end encrypted messaging core of this repository.

The embedding is byte-level: JavaScript strings handled by `btoa`/`atob` and
`Uint8Array` buffers are modelled as `List Nat` with every element below 256
(one entry per UTF-16 code unit or byte).  `TextEncoder.encode` /
`TextDecoder.decode` form a bijection between plaintext strings and their
UTF-8 byte sequences, so plaintexts are carried directly as byte lists.

The Web Crypto AES-GCM primitive (`crypto.subtle.encrypt` / `decrypt`) is not
code of this repository; it is modelled as an ideal AEAD: the ciphertext is
the plaintext masked by a key/nonce keystream, followed by an authentication
tag modelled as an injective encoding of (key, nonce, masked body).  This
idealizes the computational authenticity guarantee of GCM (a tag mismatch is
certain in the model where it is overwhelmingly probable in reality).

`btoa` and `atob` are modelled faithfully: `btoa` is canonical base64 of a
byte string, and `atob` is the WHATWG forgiving-base64 decode (ASCII
whitespace removed, up to two trailing padding characters stripped when the
length is a multiple of four, rejection of a remainder of one or of
characters outside the alphabet, and leftover bits of a final partial group
discarded).
-/

namespace TalkSecurely

/-! ## Base64: `btoa` and forgiving `atob` over byte lists -/

/-- ASCII whitespace, removed by the forgiving-base64 decode. -/
def isWs (c : Nat) : Bool :=
  c == 9 || c == 10 || c == 12 || c == 13 || c == 32

/-- The base64 alphabet: index 0-63 to character code. -/
def alpha (i : Nat) : Nat :=
  if i < 26 then 65 + i
  else if i < 52 then 97 + (i - 26)
  else if i < 62 then 48 + (i - 52)
  else if i = 62 then 43
  else 47

/-- Membership of a character code in the base64 alphabet. -/
def isB64 (c : Nat) : Bool :=
  (65 ≤ c && c ≤ 90) || (97 ≤ c && c ≤ 122) || (48 ≤ c && c ≤ 57) || c == 43 || c == 47

/-- Character code to base64 index (left inverse of `alpha` on the alphabet). -/
def b64Val (c : Nat) : Nat :=
  if 65 ≤ c ∧ c ≤ 90 then c - 65
  else if 97 ≤ c ∧ c ≤ 122 then c - 97 + 26
  else if 48 ≤ c ∧ c ≤ 57 then c - 48 + 52
  else if c = 43 then 62
  else 63

/-- `btoa`: canonical base64 encoding of a byte list, producing the list of
character codes (padding character 61 is the code of the equals sign). -/
def btoaBytes : List Nat → List Nat
  | [] => []
  | [b1] => [alpha (b1 / 4), alpha (b1 % 4 * 16), 61, 61]
  | [b1, b2] => [alpha (b1 / 4), alpha (b1 % 4 * 16 + b2 / 16), alpha (b2 % 16 * 4), 61]
  | b1 :: b2 :: b3 :: bs =>
      alpha (b1 / 4) :: alpha (b1 % 4 * 16 + b2 / 16) :: alpha (b2 % 16 * 4 + b3 / 64) ::
        alpha (b3 % 64) :: btoaBytes bs

/-- The non-padding characters of the canonical base64 encoding. -/
def btoaCore : List Nat → List Nat
  | [] => []
  | [b1] => [alpha (b1 / 4), alpha (b1 % 4 * 16)]
  | [b1, b2] => [alpha (b1 / 4), alpha (b1 % 4 * 16 + b2 / 16), alpha (b2 % 16 * 4)]
  | b1 :: b2 :: b3 :: bs =>
      alpha (b1 / 4) :: alpha (b1 % 4 * 16 + b2 / 16) :: alpha (b2 % 16 * 4 + b3 / 64) ::
        alpha (b3 % 64) :: btoaCore bs

/-- Bit-stream decoding of base64 index values, six bits per value, with the
leftover two or four bits of a final partial group discarded (WHATWG
forgiving-base64 step 10; a final group of a single value cannot occur
because a remainder of one was rejected earlier). -/
def decode64 : List Nat → List Nat
  | a :: b :: c :: d :: rest =>
      (a * 4 + b / 16) :: (b % 16 * 16 + c / 4) :: (c % 4 * 64 + d) :: decode64 rest
  | [a, b, c] => [a * 4 + b / 16, b % 16 * 16 + c / 4]
  | [a, b] => [a * 4 + b / 16]
  | _ => []

/-- Remove one trailing padding character if present. -/
def dropPad1 (l : List Nat) : List Nat :=
  if l.getLast? = some 61 then l.dropLast else l

/-- Remove up to two trailing padding characters. -/
def dropPad (l : List Nat) : List Nat :=
  dropPad1 (dropPad1 l)

/-- Remove ASCII whitespace (forgiving-base64 step 1). -/
def stripWs (s : List Nat) : List Nat :=
  s.filter (fun c => !(isWs c))

/-- Validate and decode a whitespace-free, padding-free base64 string:
reject a length with remainder one or a character outside the alphabet,
otherwise decode the six-bit groups. -/
def b64Decode (u : List Nat) : Option (List Nat) :=
  if u.length % 4 = 1 then none
  else if u.all isB64 then some (decode64 (u.map b64Val))
  else none

/-- `atob`: the WHATWG forgiving-base64 decode over character-code lists.
`none` models the `InvalidCharacterError` exception. -/
def atobBytes (s : List Nat) : Option (List Nat) :=
  let t := stripWs s
  b64Decode (if t.length % 4 = 0 then dropPad t else t)

/-! ## Ideal AES-GCM model -/

/-- Little-endian base-256 digits of a natural number, `m` digits. -/
def natBytes : Nat → Nat → List Nat
  | 0, _ => []
  | m + 1, k => (k % 256) :: natBytes m (k / 256)

/-- Recombine little-endian base-256 digits. -/
def bytesNat (l : List Nat) : Nat :=
  l.foldr (fun b acc => b + 256 * acc) 0

/-- The 32 bytes of an AES-256 key (keys are naturals below 2 ^ 256). -/
def keyBytes (key : Nat) : List Nat :=
  natBytes 32 key

/-- Pack a nonce into a natural for keystream generation. -/
def ivNat (iv : List Nat) : Nat :=
  bytesNat iv

/-- One keystream byte of the idealized cipher. -/
def ksByte (key ivn i : Nat) : Nat :=
  (key + ivn * 131 + i * 197 + key * (i + 1)) % 256

/-- Mask a byte list with the keystream starting at position `i`;
an involution, since masking is bytewise xor. -/
def mask (key ivn : Nat) : Nat → List Nat → List Nat
  | _, [] => []
  | i, b :: bs => (b ^^^ ksByte key ivn i) :: mask key ivn (i + 1) bs

/-- Ideal model of `crypto.subtle.encrypt` with AES-GCM: the masked plaintext
followed by an authentication tag.  The tag is an injective encoding of
(key, nonce, masked body), idealizing the GCM tag, which covers the
ciphertext and binds the key and the nonce. -/
def gcmEncrypt (key : Nat) (iv : List Nat) (data : List Nat) : List Nat :=
  let body := mask key (ivNat iv) 0 data
  body ++ (keyBytes key ++ iv ++ body)

/-- Ideal model of `crypto.subtle.decrypt` with AES-GCM: split the buffer into
body and tag, recompute the tag and compare; `none` models the
`OperationError` thrown on an authentication failure. -/
def gcmDecrypt (key : Nat) (iv : List Nat) (e : List Nat) : Option (List Nat) :=
  if 32 + iv.length ≤ e.length ∧ (e.length - (32 + iv.length)) % 2 = 0 then
    let n := (e.length - (32 + iv.length)) / 2
    let body := e.take n
    if e.drop n = keyBytes key ++ iv ++ body then some (mask key (ivNat iv) 0 body)
    else none
  else none

/-! ## `src/src/lib/crypto.ts`: `encryptMessage` / `decryptMessage` -/

/-- `encryptMessage` (crypto.ts 81-100): encrypt the UTF-8 bytes of the
message under a fresh 12-byte nonce, prepend the nonce, base64-encode.
The nonce produced by `crypto.getRandomValues(new Uint8Array(12))` is passed
explicitly as the `iv` argument. -/
def encryptMessage (message : List Nat) (iv : List Nat) (key : Nat) : List Nat :=
  btoaBytes (iv ++ gcmEncrypt key iv message)

/-- `decryptMessage` (crypto.ts 103-124): base64-decode, split the first 12
bytes off as the nonce, authenticated-decrypt the rest.  `none` models the
thrown `Failed to decrypt message` error (the catch block turns every
failure, including an `atob` failure, into that error). -/
def decryptMessage (blob : List Nat) (key : Nat) : Option (List Nat) :=
  match atobBytes blob with
  | none => none
  | some combined => gcmDecrypt key (combined.take 12) (combined.drop 12)

/-! ## Key material and the `ChatCryptoStore` IndexedDB database (crypto.ts) -/

/-- A key pair of exported JWKs (crypto.ts 7-10).  JWK material is opaque to
the repository and modelled as a natural. -/
structure KeyPair where
  publicKey : Nat
  privateKey : Nat
deriving DecidableEq

/-- JavaScript strings are UTF-16 code-unit sequences; identifiers are
carried as their code-unit lists.  `jsLtb` is the JavaScript string
comparison (used by the default sort comparator and by IndexedDB string-key
ordering): code-unit lexicographic, a strict prefix ordered first. -/
def jsLtb : List Nat → List Nat → Bool
  | [], [] => false
  | [], _ :: _ => true
  | _ :: _, [] => false
  | a :: as, b :: bs => if a < b then true else if b < a then false else jsLtb as bs

/-- Non-strict JavaScript string comparison. -/
def jsLeb (a b : List Nat) : Bool :=
  !(jsLtb b a)

/-- A profile row as used by the chat window (only the fields the encryption
path reads). -/
structure Profile where
  id : List Nat
  username : List Nat
deriving DecidableEq

/-- The `ChatCryptoStore` database (crypto.ts 127-144): the single-slot
`keys` object store and the `sharedKeys` object store keyed by user id. -/
structure CryptoDB where
  keys : Option KeyPair
  sharedKeys : List (List Nat × Nat)
deriving DecidableEq

/-- Lookup in an association list (IndexedDB `get` on a key-value store). -/
def lookupAssoc (l : List (List Nat × Nat)) (k : List Nat) : Option Nat :=
  match l with
  | [] => none
  | (k1, v) :: rest => if k1 = k then some v else lookupAssoc rest k

/-- Upsert in an association list (IndexedDB `put` on a key-value store). -/
def putAssoc (l : List (List Nat × Nat)) (k : List Nat) (v : Nat) :
    List (List Nat × Nat) :=
  match l with
  | [] => [(k, v)]
  | (k1, v1) :: rest => if k1 = k then (k, v) :: rest else (k1, v1) :: putAssoc rest k v

/-- `storeKeyPair` (crypto.ts 30-38). -/
def storeKeyPair (kp : KeyPair) (db : CryptoDB) : CryptoDB :=
  { db with keys := some kp }

/-- `getKeyPair` (crypto.ts 41-48). -/
def getKeyPair (db : CryptoDB) : Option KeyPair :=
  db.keys

/-- Modelled external primitive: `deriveSharedKey` (crypto.ts 51-78) wraps
`crypto.subtle.deriveKey` over ECDH P-384; the derived AES-256 key is an
opaque deterministic function of the two JWKs. -/
def deriveSharedKey (privateKeyJwk : Nat) (publicKeyJwk : Nat) : Nat :=
  Nat.pair privateKeyJwk publicKeyJwk % 2 ^ 256

/-- `cacheSharedKey` (crypto.ts 147-156); `exportKey` on the opaque JWK
material is the identity in the model. -/
def cacheSharedKey (userId : List Nat) (sharedKey : Nat) (db : CryptoDB) : CryptoDB :=
  { db with sharedKeys := putAssoc db.sharedKeys userId sharedKey }

/-- `getCachedSharedKey` (crypto.ts 159-186); `importKey` of an exported JWK
is the identity in the model. -/
def getCachedSharedKey (userId : List Nat) (db : CryptoDB) : Option Nat :=
  lookupAssoc db.sharedKeys userId

/-! ## `src/src/lib/messageStorage.ts`: the `ChatMessagesStore` database -/

/-- `StoredMessage` (messageStorage.ts 3-10).  `created_at` carries the
timestamp the comparator `new Date(x).getTime()` extracts from the ISO
string; `content` is a code-unit list like every other JavaScript string in
the byte-level embedding. -/
structure StoredMessage where
  id : List Nat
  sender_id : List Nat
  receiver_id : List Nat
  content : List Nat
  created_at : Nat
  chat_id : List Nat
deriving DecidableEq

/-- `getChatId` (messageStorage.ts 31-33): sort the two ids with the
JavaScript default comparator (code-unit lexicographic string order,
`jsLtb`) and join them with an underscore (code unit 95). -/
def getChatId (userId1 : List Nat) (userId2 : List Nat) : List Nat :=
  if jsLtb userId2 userId1 then userId2 ++ [95] ++ userId1
  else userId1 ++ [95] ++ userId2

/-- `storeMessageLocally` (messageStorage.ts 36-44): IndexedDB `put` on the
`messages` store with key path `id` — replace the record with the same id,
or add the record.  The list carries the records of the store. -/
def storeMessageLocally (message : StoredMessage) : List StoredMessage → List StoredMessage
  | [] => [message]
  | x :: xs =>
      if x.id = message.id then message :: xs else x :: storeMessageLocally message xs

/-- IndexedDB index traversal order: `index.getAll(chatId)` returns the
records whose index key equals `chatId`, sorted by primary key (the message
id), because records with an equal index key are sorted by the key of the
referenced object-store record (IndexedDB spec, section on index records).
`insertById` and `sortById` realize that order over the record list. -/
def insertById (m : StoredMessage) : List StoredMessage → List StoredMessage
  | [] => [m]
  | x :: xs => if jsLeb m.id x.id then m :: x :: xs else x :: insertById m xs

/-- Sort records into IndexedDB primary-key order. -/
def sortById : List StoredMessage → List StoredMessage
  | [] => []
  | x :: xs => insertById x (sortById xs)

/-- The stable JavaScript `Array.prototype.sort` (ES2019 requires a stable
sort) with the comparator of messageStorage.ts 57-59, which compares
`created_at` timestamps; modelled as a stable insertion sort (equal keys
keep the input order). -/
def insertByTime (m : StoredMessage) : List StoredMessage → List StoredMessage
  | [] => [m]
  | x :: xs =>
      if m.created_at ≤ x.created_at then m :: x :: xs else x :: insertByTime m xs

/-- Stable sort of records by `created_at`. -/
def sortByTime : List StoredMessage → List StoredMessage
  | [] => []
  | x :: xs => insertByTime x (sortByTime xs)

/-- `getLocalMessages` (messageStorage.ts 47-64): `index.getAll(chatId)` (the
records of the conversation in primary-key order) followed by the stable
`created_at` sort. -/
def getLocalMessages (chatId : List Nat) (store : List StoredMessage) :
    List StoredMessage :=
  sortByTime (sortById (store.filter (fun m => m.chat_id == chatId)))

/-- The device-local state touched by the settings dialog: the `messages`
store of `ChatMessagesStore` and, in the separate `ChatCryptoStore`
database, the identity key pair and the shared-key cache. -/
structure AppState where
  messagesDB : List StoredMessage
  cryptoDB : CryptoDB
deriving DecidableEq

/-- `clearLocalMessages` (messageStorage.ts 67-75): `clear()` on the
`messages` object store of `ChatMessagesStore`; no other store is touched. -/
def clearLocalMessages (st : AppState) : AppState :=
  { st with messagesDB := [] }

/-! ## `ChatWindow` orchestration (src/unnamed/part_002) -/

/-- `setupSharedKey` (part_002 210-269).  Arguments: the selected peer and
the identity key pair (the two refs read at entry), the `profiles` table
restricted to the `public_key` column (with `JSON.parse` of stored
`JSON.stringify` material the identity), the current `sharedKeyRef`, and the
`ChatCryptoStore` state.  Returns the new database state, the new
`sharedKeyRef` (left unchanged by every early return and by the catch
branch), and whether `deriveSharedKey` ran. -/
def setupSharedKey (selectedUser : Option Profile) (myKeyPair : Option KeyPair)
    (profiles : List Nat → Option Nat) (sharedKeyRef : Option Nat) (db : CryptoDB) :
    CryptoDB × Option Nat × Bool :=
  match selectedUser, myKeyPair with
  | some peer, some kp =>
      match getCachedSharedKey peer.id db with
      | some k => (db, some k, false)
      | none =>
          match profiles peer.id with
          | none => (db, sharedKeyRef, false)
          | some pk =>
              let k := deriveSharedKey kp.privateKey pk
              (cacheSharedKey peer.id k db, some k, true)
  | _, _ => (db, sharedKeyRef, false)

/-- `initializeEncryption` (part_002 180-208): reuse the persisted key pair
or generate, persist and publish a fresh one.  The entropy of
`generateKeyPair` is the explicit `fresh` argument.  Returns the new
database, the new `profiles` column, the pair placed in `myKeyPairRef`, and
whether a pair was generated. -/
def initializeEncryption (currentUserId : List Nat) (fresh : KeyPair) (db : CryptoDB)
    (profiles : List Nat → Option Nat) :
    CryptoDB × (List Nat → Option Nat) × KeyPair × Bool :=
  match getKeyPair db with
  | some keyPair => (db, profiles, keyPair, false)
  | none =>
      (storeKeyPair fresh db,
       fun u => if u = currentUserId then some fresh.publicKey else profiles u,
       fresh, true)

/-- A realtime transport payload (the `Message` shape of part_002 129-135). -/
structure Message where
  id : List Nat
  sender_id : List Nat
  receiver_id : List Nat
  content : List Nat
  created_at : Nat
deriving DecidableEq

/-- The `StoredMessage` built by `handleNewMessage` (part_002 330-337) from a
transport payload and the content to store. -/
def mkStoredMessage (msg : Message) (content : List Nat) : StoredMessage :=
  { id := msg.id, sender_id := msg.sender_id, receiver_id := msg.receiver_id,
    content := content, created_at := msg.created_at,
    chat_id := getChatId msg.sender_id msg.receiver_id }

/-- `handleNewMessage` (part_002 319-357): run `setupSharedKey` when no
shared key is held; decrypt when a key is held, otherwise keep the raw
transport content; store the record and append it to the rendered list.  A
decryption failure is caught and the message is neither stored nor shown.
Returns the new `sharedKeyRef`, crypto database, message store and rendered
list. -/
def handleNewMessage (selectedUser : Option Profile) (myKeyPair : Option KeyPair)
    (profiles : List Nat → Option Nat) (msg : Message) (sharedKeyRef : Option Nat)
    (db : CryptoDB) (store : List StoredMessage) (ui : List StoredMessage) :
    Option Nat × CryptoDB × List StoredMessage × List StoredMessage :=
  let s :=
    match sharedKeyRef with
    | none => setupSharedKey selectedUser myKeyPair profiles sharedKeyRef db
    | some k => (db, some k, false)
  match s.2.1 with
  | some k =>
      match decryptMessage msg.content k with
      | some plain =>
          let sm := mkStoredMessage msg plain
          (some k, s.1, storeMessageLocally sm store, ui ++ [sm])
      | none => (some k, s.1, store, ui)
  | none =>
      let sm := mkStoredMessage msg msg.content
      (none, s.1, storeMessageLocally sm store, ui ++ [sm])

/-! ## Concrete material for witnesses and counterexamples -/

/-- A concrete 12-byte nonce. -/
def ivC : List Nat :=
  [0, 1, 2, 3, 4, 5, 6, 7, 8, 9, 10, 11]

/-- A concrete blob: byte 72 encrypted under key 2 and nonce `ivC`.  Its
final non-padding base64 character is the letter A (code 65). -/
def blobC : List Nat :=
  encryptMessage [72] ivC 2

/-- `blobC` with one bit of byte 77 flipped: the letter A (code 65) becomes
the letter C (code 67), a base64 value change from 0 to 2 that only touches
the four trailing bits the forgiving decode discards, so the decoded bytes
are unchanged. -/
def blobCtampered : List Nat :=
  blobC.set 77 (alpha ((ivC ++ gcmEncrypt 2 ivC [72]).getD 57 0 % 4 * 16 + 2))

/-- Induction on a byte list in groups of three, matching the recursion of
`btoaBytes` and `btoaCore`. -/
def chunk3Induction {P : List Nat → Prop} (h0 : P [])
    (h1 : ∀ b1, P [b1]) (h2 : ∀ b1 b2, P [b1, b2])
    (h3 : ∀ b1 b2 b3 rest, P rest → P (b1 :: b2 :: b3 :: rest)) :
    ∀ l, P l
  | [] => h0
  | [b1] => h1 b1
  | [b1, b2] => h2 b1 b2
  | b1 :: b2 :: b3 :: rest => h3 b1 b2 b3 rest (chunk3Induction h0 h1 h2 h3 rest)

/-- Induction on a character list in groups of four, matching the recursion
of `decode64`. -/
def chunk4Induction {P : List Nat → Prop} (h0 : P [])
    (h1 : ∀ a, P [a]) (h2 : ∀ a b, P [a, b]) (h3 : ∀ a b c, P [a, b, c])
    (h4 : ∀ a b c d rest, P rest → P (a :: b :: c :: d :: rest)) :
    ∀ l, P l
  | [] => h0
  | [a] => h1 a
  | [a, b] => h2 a b
  | [a, b, c] => h3 a b c
  | a :: b :: c :: d :: rest => h4 a b c d rest (chunk4Induction h0 h1 h2 h3 h4 rest)

/-! ## Lemmas: base64 round trip -/

theorem alpha_facts : ∀ v : Nat, v < 64 →
    isWs (alpha v) = false ∧ isB64 (alpha v) = true ∧ b64Val (alpha v) = v ∧
      alpha v ≠ 61 ∧ alpha v < 256 := by
  decide

theorem mem_btoaBytes : ∀ bs : List Nat, (∀ b ∈ bs, b < 256) →
    ∀ c ∈ btoaBytes bs, c = 61 ∨ ∃ v, v < 64 ∧ c = alpha v := by
  intro bs
  induction bs using chunk3Induction with
  | h0 => intro _ c hc; simp [btoaBytes] at hc
  | h1 b1 =>
      intro h c hc
      have hb1 : b1 < 256 := h b1 (by simp)
      simp only [btoaBytes, List.mem_cons, List.not_mem_nil, or_false] at hc
      rcases hc with hc | hc | hc | hc
      · exact Or.inr ⟨b1 / 4, by omega, hc⟩
      · exact Or.inr ⟨b1 % 4 * 16, by omega, hc⟩
      · exact Or.inl hc
      · exact Or.inl hc
  | h2 b1 b2 =>
      intro h c hc
      have hb1 : b1 < 256 := h b1 (by simp)
      have hb2 : b2 < 256 := h b2 (by simp)
      simp only [btoaBytes, List.mem_cons, List.not_mem_nil, or_false] at hc
      rcases hc with hc | hc | hc | hc
      · exact Or.inr ⟨b1 / 4, by omega, hc⟩
      · exact Or.inr ⟨b1 % 4 * 16 + b2 / 16, by omega, hc⟩
      · exact Or.inr ⟨b2 % 16 * 4, by omega, hc⟩
      · exact Or.inl hc
  | h3 b1 b2 b3 rest ih =>
      intro h c hc
      have hb1 : b1 < 256 := h b1 (by simp)
      have hb2 : b2 < 256 := h b2 (by simp)
      have hb3 : b3 < 256 := h b3 (by simp)
      simp only [btoaBytes, List.mem_cons] at hc
      rcases hc with hc | hc | hc | hc | hc
      · exact Or.inr ⟨b1 / 4, by omega, hc⟩
      · exact Or.inr ⟨b1 % 4 * 16 + b2 / 16, by omega, hc⟩
      · exact Or.inr ⟨b2 % 16 * 4 + b3 / 64, by omega, hc⟩
      · exact Or.inr ⟨b3 % 64, by omega, hc⟩
      · exact ih (fun b hb => h b (by simp [hb])) c hc

theorem stripWs_btoaBytes (bs : List Nat) (h : ∀ b ∈ bs, b < 256) :
    stripWs (btoaBytes bs) = btoaBytes bs := by
  refine List.filter_eq_self.mpr ?_
  intro c hc
  rcases mem_btoaBytes bs h c hc with hc61 | ⟨v, hv, hcv⟩
  · subst hc61; decide
  · subst hcv
    simp [(alpha_facts v hv).1]

theorem length_btoaBytes_mod (bs : List Nat) : (btoaBytes bs).length % 4 = 0 := by
  induction bs using chunk3Induction with
  | h0 => rfl
  | h1 b1 => simp [btoaBytes]
  | h2 b1 b2 => simp [btoaBytes]
  | h3 b1 b2 b3 rest ih =>
      simp only [btoaBytes, List.length_cons]
      omega

theorem getLast?_ne_pad (x : List Nat) (hx : ∀ c ∈ x, c ≠ 61) :
    x.getLast? ≠ some 61 :=
  fun h => hx 61 (List.mem_of_mem_getLast? h) rfl

theorem dropPad1_of_ne (x : List Nat) (hx : ∀ c ∈ x, c ≠ 61) : dropPad1 x = x :=
  if_neg (getLast?_ne_pad x hx)

theorem dropPad1_append (x y : List Nat) (hy : y ≠ []) :
    dropPad1 (x ++ y) = x ++ dropPad1 y := by
  unfold dropPad1
  rw [List.getLast?_append_of_ne_nil x hy]
  by_cases h : y.getLast? = some 61
  · rw [if_pos h, if_pos h, List.dropLast_append_of_ne_nil x hy]
  · rw [if_neg h, if_neg h]

theorem dropPad_of_ne (x : List Nat) (hx : ∀ c ∈ x, c ≠ 61) : dropPad x = x := by
  unfold dropPad
  rw [dropPad1_of_ne x hx, dropPad1_of_ne x hx]

theorem dropPad1_nil : dropPad1 [] = [] := by
  simp [dropPad1]

theorem dropPad_append (x y : List Nat) (hx : ∀ c ∈ x, c ≠ 61) :
    dropPad (x ++ y) = x ++ dropPad y := by
  rcases eq_or_ne y [] with hy | hy
  · subst hy
    rw [List.append_nil, dropPad_of_ne x hx]
    show x = x ++ dropPad1 (dropPad1 [])
    rw [dropPad1_nil, dropPad1_nil, List.append_nil]
  · unfold dropPad
    rw [dropPad1_append x y hy]
    rcases eq_or_ne (dropPad1 y) [] with h1 | h1
    · rw [h1, List.append_nil, dropPad1_of_ne x hx, dropPad1_nil, List.append_nil]
    · rw [dropPad1_append x (dropPad1 y) h1]

theorem mem_chunk_ne_pad (bs : List Nat) (h : ∀ b ∈ bs, b < 256) :
    ∀ c ∈ btoaCore bs, c ≠ 61 := by
  intro c hc
  induction bs using chunk3Induction with
  | h0 => simp [btoaCore] at hc
  | h1 b1 =>
      have hb1 : b1 < 256 := h b1 (by simp)
      simp only [btoaCore, List.mem_cons, List.not_mem_nil, or_false] at hc
      rcases hc with hc | hc <;> subst hc <;>
        exact (alpha_facts _ (by omega)).2.2.2.1
  | h2 b1 b2 =>
      have hb1 : b1 < 256 := h b1 (by simp)
      have hb2 : b2 < 256 := h b2 (by simp)
      simp only [btoaCore, List.mem_cons, List.not_mem_nil, or_false] at hc
      rcases hc with hc | hc | hc <;> subst hc <;>
        exact (alpha_facts _ (by omega)).2.2.2.1
  | h3 b1 b2 b3 rest ih =>
      have hb1 : b1 < 256 := h b1 (by simp)
      have hb2 : b2 < 256 := h b2 (by simp)
      have hb3 : b3 < 256 := h b3 (by simp)
      simp only [btoaCore, List.mem_cons] at hc
      rcases hc with hc | hc | hc | hc | hc
      · subst hc; exact (alpha_facts _ (by omega)).2.2.2.1
      · subst hc; exact (alpha_facts _ (by omega)).2.2.2.1
      · subst hc; exact (alpha_facts _ (by omega)).2.2.2.1
      · subst hc; exact (alpha_facts _ (by omega)).2.2.2.1
      · exact ih (fun b hb => h b (by simp [hb])) hc

theorem dropPad_btoaBytes (bs : List Nat) (h : ∀ b ∈ bs, b < 256) :
    dropPad (btoaBytes bs) = btoaCore bs := by
  induction bs using chunk3Induction with
  | h0 => rfl
  | h1 b1 =>
      have hb1 : b1 < 256 := h b1 (by simp)
      have hx : ∀ c ∈ [alpha (b1 / 4), alpha (b1 % 4 * 16)], c ≠ 61 := by
        intro c hc
        simp only [List.mem_cons, List.not_mem_nil, or_false] at hc
        rcases hc with hc | hc <;> subst hc <;>
          exact (alpha_facts _ (by omega)).2.2.2.1
      show dropPad ([alpha (b1 / 4), alpha (b1 % 4 * 16)] ++ [61, 61]) = _
      rw [dropPad_append _ _ hx]
      rfl
  | h2 b1 b2 =>
      have hb1 : b1 < 256 := h b1 (by simp)
      have hb2 : b2 < 256 := h b2 (by simp)
      have hx : ∀ c ∈ [alpha (b1 / 4), alpha (b1 % 4 * 16 + b2 / 16),
          alpha (b2 % 16 * 4)], c ≠ 61 := by
        intro c hc
        simp only [List.mem_cons, List.not_mem_nil, or_false] at hc
        rcases hc with hc | hc | hc <;> subst hc <;>
          exact (alpha_facts _ (by omega)).2.2.2.1
      show dropPad
          ([alpha (b1 / 4), alpha (b1 % 4 * 16 + b2 / 16), alpha (b2 % 16 * 4)] ++ [61]) = _
      rw [dropPad_append _ _ hx]
      rfl
  | h3 b1 b2 b3 rest ih =>
      have hb1 : b1 < 256 := h b1 (by simp)
      have hb2 : b2 < 256 := h b2 (by simp)
      have hb3 : b3 < 256 := h b3 (by simp)
      have hrest : ∀ b ∈ rest, b < 256 := fun b hb => h b (by simp [hb])
      have hx : ∀ c ∈ [alpha (b1 / 4), alpha (b1 % 4 * 16 + b2 / 16),
          alpha (b2 % 16 * 4 + b3 / 64), alpha (b3 % 64)], c ≠ 61 := by
        intro c hc
        simp only [List.mem_cons, List.not_mem_nil, or_false] at hc
        rcases hc with hc | hc | hc | hc <;> subst hc <;>
          exact (alpha_facts _ (by omega)).2.2.2.1
      show dropPad ([alpha (b1 / 4), alpha (b1 % 4 * 16 + b2 / 16),
          alpha (b2 % 16 * 4 + b3 / 64), alpha (b3 % 64)] ++ btoaBytes rest) = _
      rw [dropPad_append _ _ hx, ih hrest]
      rfl

theorem length_btoaCore_mod (bs : List Nat) : (btoaCore bs).length % 4 ≠ 1 := by
  induction bs using chunk3Induction with
  | h0 => simp [btoaCore]
  | h1 b1 => simp [btoaCore]
  | h2 b1 b2 => simp [btoaCore]
  | h3 b1 b2 b3 rest ih =>
      simp only [btoaCore, List.length_cons]
      omega

theorem all_isB64_btoaCore (bs : List Nat) (h : ∀ b ∈ bs, b < 256) :
    (btoaCore bs).all isB64 = true := by
  rw [List.all_eq_true]
  intro c hc
  induction bs using chunk3Induction with
  | h0 => simp [btoaCore] at hc
  | h1 b1 =>
      have hb1 : b1 < 256 := h b1 (by simp)
      simp only [btoaCore, List.mem_cons, List.not_mem_nil, or_false] at hc
      rcases hc with hc | hc <;> subst hc <;>
        exact (alpha_facts _ (by omega)).2.1
  | h2 b1 b2 =>
      have hb1 : b1 < 256 := h b1 (by simp)
      have hb2 : b2 < 256 := h b2 (by simp)
      simp only [btoaCore, List.mem_cons, List.not_mem_nil, or_false] at hc
      rcases hc with hc | hc | hc <;> subst hc <;>
        exact (alpha_facts _ (by omega)).2.1
  | h3 b1 b2 b3 rest ih =>
      have hb1 : b1 < 256 := h b1 (by simp)
      have hb2 : b2 < 256 := h b2 (by simp)
      have hb3 : b3 < 256 := h b3 (by simp)
      simp only [btoaCore, List.mem_cons] at hc
      rcases hc with hc | hc | hc | hc | hc
      · subst hc; exact (alpha_facts _ (by omega)).2.1
      · subst hc; exact (alpha_facts _ (by omega)).2.1
      · subst hc; exact (alpha_facts _ (by omega)).2.1
      · subst hc; exact (alpha_facts _ (by omega)).2.1
      · exact ih (fun b hb => h b (by simp [hb])) hc

theorem decode64_btoaCore (bs : List Nat) (h : ∀ b ∈ bs, b < 256) :
    decode64 ((btoaCore bs).map b64Val) = bs := by
  induction bs using chunk3Induction with
  | h0 => rfl
  | h1 b1 =>
      have hb1 : b1 < 256 := h b1 (by simp)
      simp only [btoaCore, List.map_cons, List.map_nil,
        (alpha_facts _ (show b1 / 4 < 64 by omega)).2.2.1,
        (alpha_facts _ (show b1 % 4 * 16 < 64 by omega)).2.2.1, decode64,
        List.cons.injEq, and_true]
      omega
  | h2 b1 b2 =>
      have hb1 : b1 < 256 := h b1 (by simp)
      have hb2 : b2 < 256 := h b2 (by simp)
      simp only [btoaCore, List.map_cons, List.map_nil,
        (alpha_facts _ (show b1 / 4 < 64 by omega)).2.2.1,
        (alpha_facts _ (show b1 % 4 * 16 + b2 / 16 < 64 by omega)).2.2.1,
        (alpha_facts _ (show b2 % 16 * 4 < 64 by omega)).2.2.1, decode64,
        List.cons.injEq, and_true]
      omega
  | h3 b1 b2 b3 rest ih =>
      have hb1 : b1 < 256 := h b1 (by simp)
      have hb2 : b2 < 256 := h b2 (by simp)
      have hb3 : b3 < 256 := h b3 (by simp)
      have hrest : ∀ b ∈ rest, b < 256 := fun b hb => h b (by simp [hb])
      simp only [btoaCore, List.map_cons,
        (alpha_facts _ (show b1 / 4 < 64 by omega)).2.2.1,
        (alpha_facts _ (show b1 % 4 * 16 + b2 / 16 < 64 by omega)).2.2.1,
        (alpha_facts _ (show b2 % 16 * 4 + b3 / 64 < 64 by omega)).2.2.1,
        (alpha_facts _ (show b3 % 64 < 64 by omega)).2.2.1, decode64,
        List.cons.injEq]
      refine ⟨by omega, by omega, by omega, ih hrest⟩

/-- Decoding a canonical base64 encoding recovers the bytes: `atob` after
`btoa` is the identity on byte strings. -/
theorem atobBytes_btoaBytes (bs : List Nat) (h : ∀ b ∈ bs, b < 256) :
    atobBytes (btoaBytes bs) = some bs := by
  show b64Decode
      (if (stripWs (btoaBytes bs)).length % 4 = 0 then dropPad (stripWs (btoaBytes bs))
       else stripWs (btoaBytes bs)) = some bs
  rw [stripWs_btoaBytes bs h, if_pos (length_btoaBytes_mod bs), dropPad_btoaBytes bs h]
  unfold b64Decode
  rw [if_neg (length_btoaCore_mod bs), all_isB64_btoaCore bs h, if_pos rfl,
    decode64_btoaCore bs h]

/-- `btoaBytes` is injective on byte strings. -/
theorem btoaBytes_inj (bs1 bs2 : List Nat) (h1 : ∀ b ∈ bs1, b < 256)
    (h2 : ∀ b ∈ bs2, b < 256) (he : btoaBytes bs1 = btoaBytes bs2) : bs1 = bs2 := by
  have := atobBytes_btoaBytes bs1 h1
  rw [he, atobBytes_btoaBytes bs2 h2] at this
  exact (Option.some_inj.mp this).symm

/-! ## Lemmas: base64 under modification -/

theorem isB64_not_ws (c : Nat) (h : isB64 c = true) : isWs c = false := by
  simp only [isB64, Bool.or_eq_true, Bool.and_eq_true, decide_eq_true_eq,
    beq_iff_eq] at h
  simp only [isWs, Bool.or_eq_false_iff, beq_eq_false_iff_ne]
  omega

theorem isB64_ne_pad (c : Nat) (h : isB64 c = true) : c ≠ 61 := by
  simp only [isB64, Bool.or_eq_true, Bool.and_eq_true, decide_eq_true_eq,
    beq_iff_eq] at h
  omega

theorem b64Val_lt (c : Nat) (h : isB64 c = true) : b64Val c < 64 := by
  simp only [isB64, Bool.or_eq_true, Bool.and_eq_true, decide_eq_true_eq,
    beq_iff_eq] at h
  unfold b64Val
  split_ifs <;> omega

theorem alpha_b64Val (c : Nat) (h : isB64 c = true) : alpha (b64Val c) = c := by
  simp only [isB64, Bool.or_eq_true, Bool.and_eq_true, decide_eq_true_eq,
    beq_iff_eq] at h
  unfold b64Val alpha
  split_ifs <;> omega

theorem length_decode64 : ∀ l : List Nat, (decode64 l).length = l.length * 3 / 4 := by
  intro l
  induction l using chunk4Induction with
  | h0 => rfl
  | h1 a => simp [decode64]
  | h2 a b => simp [decode64]
  | h3 a b c => simp [decode64]
  | h4 a b c d rest ih =>
      simp only [decode64, List.length_cons, ih]
      omega

theorem four_le_length_btoaBytes (bs : List Nat) (h : bs ≠ []) :
    4 ≤ (btoaBytes bs).length := by
  induction bs using chunk3Induction with
  | h0 => exact absurd rfl h
  | h1 b1 => simp [btoaBytes]
  | h2 b1 b2 => simp [btoaBytes]
  | h3 b1 b2 b3 rest ih => simp [btoaBytes]

theorem no_pad_btoaBytes_length : ∀ bs : List Nat, (61 : Nat) ∉ btoaBytes bs →
    3 * (btoaBytes bs).length = 4 * bs.length := by
  intro bs
  induction bs using chunk3Induction with
  | h0 => intro _; rfl
  | h1 b1 => intro h; exact absurd (by simp [btoaBytes]) h
  | h2 b1 b2 => intro h; exact absurd (by simp [btoaBytes]) h
  | h3 b1 b2 b3 rest ih =>
      intro h
      have hrest : (61 : Nat) ∉ btoaBytes rest := fun hc => h (by simp [btoaBytes, hc])
      simp only [btoaBytes, List.length_cons]
      have := ih hrest
      omega

theorem all_isB64_btoaBytes_of_no_pad (bs : List Nat) (hb : ∀ b ∈ bs, b < 256)
    (h : (61 : Nat) ∉ btoaBytes bs) : (btoaBytes bs).all isB64 = true := by
  rw [List.all_eq_true]
  intro c hc
  rcases mem_btoaBytes bs hb c hc with hc61 | ⟨v, hv, hcv⟩
  · exact absurd (hc61 ▸ hc) h
  · subst hcv
    exact (alpha_facts v hv).2.1

theorem length_dropPad1_ge (l : List Nat) : l.length - 1 ≤ (dropPad1 l).length := by
  unfold dropPad1
  split_ifs with h
  · rw [List.length_dropLast]
  · omega

theorem dropPad_append_big (x y : List Nat) (hy : 3 ≤ y.length) :
    dropPad (x ++ y) = x ++ dropPad y := by
  have hy0 : y ≠ [] := by
    intro hc
    rw [hc] at hy
    simp at hy
  unfold dropPad
  rw [dropPad1_append x y hy0]
  have h1 : dropPad1 y ≠ [] := by
    intro hc
    have := length_dropPad1_ge y
    rw [hc] at this
    simp at this
    omega
  rw [dropPad1_append x (dropPad1 y) h1]

theorem dropAppendGe (x y : List Nat) (k : Nat) (h : x.length ≤ k) :
    (x ++ y).drop k = y.drop (k - x.length) := by
  rw [List.drop_append_eq_append_drop, List.drop_eq_nil_of_le h, List.nil_append]

theorem b64Decode_chunk (x1 x2 x3 x4 : Nat) (u : List Nat)
    (h1 : isB64 x1 = true) (h2 : isB64 x2 = true) (h3 : isB64 x3 = true)
    (h4 : isB64 x4 = true) :
    b64Decode (x1 :: x2 :: x3 :: x4 :: u) =
      Option.map (fun d => (b64Val x1 * 4 + b64Val x2 / 16) ::
        (b64Val x2 % 16 * 16 + b64Val x3 / 4) ::
        (b64Val x3 % 4 * 64 + b64Val x4) :: d) (b64Decode u) := by
  unfold b64Decode
  simp only [List.length_cons, List.all_cons, h1, h2, h3, h4, Bool.true_and,
    List.map_cons]
  have hmod : (u.length + 1 + 1 + 1 + 1) % 4 = u.length % 4 := by omega
  rw [hmod]
  by_cases hu1 : u.length % 4 = 1
  · simp [hu1]
  · by_cases hu2 : u.all isB64 = true
    · simp [hu1, hu2, decode64]
    · simp [hu1, hu2]

theorem stripWs_cons_of_not_ws (c : Nat) (t : List Nat) (h : isWs c = false) :
    stripWs (c :: t) = c :: stripWs t := by
  simp [stripWs, List.filter_cons, h]

theorem atob_chunk (x1 x2 x3 x4 : Nat) (t : List Nat)
    (h1 : isB64 x1 = true) (h2 : isB64 x2 = true) (h3 : isB64 x3 = true)
    (h4 : isB64 x4 = true) :
    atobBytes (x1 :: x2 :: x3 :: x4 :: t) =
      Option.map (fun d => (b64Val x1 * 4 + b64Val x2 / 16) ::
        (b64Val x2 % 16 * 16 + b64Val x3 / 4) ::
        (b64Val x3 % 4 * 64 + b64Val x4) :: d) (atobBytes t) := by
  have hs : stripWs (x1 :: x2 :: x3 :: x4 :: t) = x1 :: x2 :: x3 :: x4 :: stripWs t := by
    rw [stripWs_cons_of_not_ws _ _ (isB64_not_ws _ h1),
      stripWs_cons_of_not_ws _ _ (isB64_not_ws _ h2),
      stripWs_cons_of_not_ws _ _ (isB64_not_ws _ h3),
      stripWs_cons_of_not_ws _ _ (isB64_not_ws _ h4)]
  have hne : ∀ c ∈ [x1, x2, x3, x4], c ≠ 61 := by
    intro c hc
    simp only [List.mem_cons, List.not_mem_nil, or_false] at hc
    rcases hc with hc | hc | hc | hc <;> subst hc <;>
      first
        | exact isB64_ne_pad _ h1
        | exact isB64_ne_pad _ h2
        | exact isB64_ne_pad _ h3
        | exact isB64_ne_pad _ h4
  show b64Decode (if (stripWs (x1 :: x2 :: x3 :: x4 :: t)).length % 4 = 0
      then dropPad (stripWs (x1 :: x2 :: x3 :: x4 :: t))
      else stripWs (x1 :: x2 :: x3 :: x4 :: t)) = _
  rw [hs]
  have hmod : (x1 :: x2 :: x3 :: x4 :: stripWs t).length % 4 = (stripWs t).length % 4 := by
    simp only [List.length_cons]
    omega
  rw [hmod]
  show _ = Option.map _ (b64Decode (if (stripWs t).length % 4 = 0
    then dropPad (stripWs t) else stripWs t))
  by_cases hc : (stripWs t).length % 4 = 0
  · rw [if_pos hc, if_pos hc,
      show x1 :: x2 :: x3 :: x4 :: stripWs t = [x1, x2, x3, x4] ++ stripWs t from rfl,
      dropPad_append _ _ hne]
    show b64Decode (x1 :: x2 :: x3 :: x4 :: dropPad (stripWs t)) = _
    exact b64Decode_chunk x1 x2 x3 x4 _ h1 h2 h3 h4
  · rw [if_neg hc, if_neg hc]
    exact b64Decode_chunk x1 x2 x3 x4 _ h1 h2 h3 h4

theorem atobBytes_eval (s : List Nat) : atobBytes s =
    b64Decode (if (stripWs s).length % 4 = 0 then dropPad (stripWs s) else stripWs s) :=
  rfl

theorem b64Decode_none_of_mem (u : List Nat) (c : Nat) (hc : c ∈ u)
    (hbad : isB64 c = false) : b64Decode u = none := by
  unfold b64Decode
  split_ifs with h1 h2
  · rfl
  · have hct := List.all_eq_true.mp h2 c hc
    rw [hbad] at hct
    exact Bool.noConfusion hct
  · rfl

theorem stripWs_of_no_ws (s : List Nat) (h : ∀ c ∈ s, isWs c = false) :
    stripWs s = s :=
  List.filter_eq_self.mpr (fun c hc => by rw [h c hc]; rfl)

theorem b64Val_inj (c c2 : Nat) (h : isB64 c = true) (h2 : isB64 c2 = true)
    (he : b64Val c = b64Val c2) : c = c2 := by
  rw [← alpha_b64Val c h, ← alpha_b64Val c2 h2, he]

theorem b64Decode_no_pad (u : List Nat) (hmod : u.length % 4 ≠ 1)
    (hall : u.all isB64 = true) :
    b64Decode u = some (decode64 (u.map b64Val)) := by
  unfold b64Decode
  rw [if_neg hmod, if_pos hall]

/-- Only the unused trailing bits of a padding character are dropped, so a
character of the decoded list survives `dropPad` whenever it is not the
padding character itself. -/
theorem mem_dropPad1_of_ne_pad (u : List Nat) (c : Nat) (hc : c ∈ u) (hne : c ≠ 61) :
    c ∈ dropPad1 u := by
  unfold dropPad1
  split_ifs with h
  · have hu : u ≠ [] := by
      intro h0
      rw [h0] at h
      simp [List.getLast?] at h
    have hdl := List.dropLast_append_getLast hu
    have hlast : u.getLast hu = 61 := by
      have h2 := List.getLast?_eq_getLast u hu
      rw [h2] at h
      exact Option.some_inj.mp h
    rw [← hdl] at hc
    rcases List.mem_append.mp hc with h1 | h1
    · exact h1
    · simp only [List.mem_singleton] at h1
      exact absurd (h1.trans hlast) hne
  · exact hc

theorem mem_dropPad_of_ne_pad (u : List Nat) (c : Nat) (hc : c ∈ u) (hne : c ≠ 61) :
    c ∈ dropPad u :=
  mem_dropPad1_of_ne_pad _ c (mem_dropPad1_of_ne_pad _ c hc hne) hne

theorem atob_eval_eq (s t : List Nat) (hs : stripWs s = t) :
    atobBytes s = b64Decode (if t.length % 4 = 0 then dropPad t else t) := by
  rw [atobBytes_eval, hs]

/-- Classification of a single byte change anywhere in a canonical base64
blob: the changed blob is rejected by `atob`, or decodes to the identical
byte sequence (a change confined to the unused trailing bits of the final
partial group, or the lone final padding character turned into whitespace),
or decodes to a sequence differing from the original inside one contiguous
window of at most three bytes, or decodes to a sequence exactly one byte
longer or shorter. -/
theorem atobBytes_set_classify : ∀ bs : List Nat, (∀ b ∈ bs, b < 256) →
    ∀ p v, p < (btoaBytes bs).length → v ≠ (btoaBytes bs).getD p 0 →
    atobBytes ((btoaBytes bs).set p v) = none ∨
    atobBytes ((btoaBytes bs).set p v) = some bs ∨
    (∃ a w1 w2 z, bs = a ++ w1 ++ z ∧
      atobBytes ((btoaBytes bs).set p v) = some (a ++ w2 ++ z) ∧
      w1.length = w2.length ∧ w1.length ≤ 3 ∧ w1 ≠ w2) ∨
    (∃ d, atobBytes ((btoaBytes bs).set p v) = some d ∧
      (d.length = bs.length + 1 ∨ d.length + 1 = bs.length)) := by
  intro bs
  induction bs using chunk3Induction with
  | h0 =>
      intro _ p v hp _
      simp [btoaBytes] at hp
  | h1 b1 =>
      intro h p v hp hv
      have hb1 : b1 < 256 := h b1 (by simp)
      obtain ⟨f1w, f1b, f1v, f1ne, _⟩ := alpha_facts (b1 / 4) (by omega)
      obtain ⟨f2w, f2b, f2v, f2ne, _⟩ := alpha_facts (b1 % 4 * 16) (by omega)
      simp only [btoaBytes] at hp hv ⊢
      simp only [List.length_cons, List.length_nil] at hp
      have hp4 : p < 4 := by omega
      have hpadw : isWs 61 = false := rfl
      interval_cases p
      · -- p = 0, old char is alpha (b1 / 4)
        simp only [List.getD_cons_zero] at hv
        have hset : ([alpha (b1 / 4), alpha (b1 % 4 * 16), 61, 61] : List Nat).set 0 v =
            [v, alpha (b1 % 4 * 16), 61, 61] := rfl
        rw [hset]
        by_cases hvB : isB64 v = true
        · have hvne61 := isB64_ne_pad v hvB
          have hvw := isB64_not_ws v hvB
          have hune : b64Val v ≠ b1 / 4 := fun he => hv (by rw [← alpha_b64Val v hvB, he])
          have hulb := b64Val_lt v hvB
          refine Or.inr (Or.inr (Or.inl
            ⟨[], [b1], [b64Val v * 4 + b1 % 4], [], by simp, ?_, by simp, by simp, ?_⟩))
          · rw [atob_eval_eq _ [v, alpha (b1 % 4 * 16), 61, 61]
              (by simp [stripWs, List.filter_cons, hvw, f2w, hpadw])]
            rw [if_pos (by simp)]
            rw [show dropPad [v, alpha (b1 % 4 * 16), 61, 61] = [v, alpha (b1 % 4 * 16)] from by
              simp [dropPad, dropPad1, List.getLast?, List.dropLast, f2ne, hvne61]]
            rw [b64Decode_no_pad _ (by simp) (by simp [List.all_cons, hvB, f2b])]
            simp only [List.map_cons, List.map_nil, f2v, decode64]
            rw [show b1 % 4 * 16 / 16 = b1 % 4 from by omega]
            simp
          · intro hw
            simp only [List.cons.injEq, and_true] at hw
            omega
        · by_cases hvW : isWs v = true
          · refine Or.inl ?_
            rw [atob_eval_eq _ [alpha (b1 % 4 * 16), 61, 61]
              (by simp [stripWs, List.filter_cons, hvW, f2w, hpadw])]
            rw [if_neg (by simp)]
            exact b64Decode_none_of_mem _ 61 (by simp) rfl
          · have hvWf : isWs v = false := Bool.eq_false_iff.mpr hvW
            by_cases hv61 : v = 61
            · subst hv61
              refine Or.inl ?_
              rw [atob_eval_eq _ [61, alpha (b1 % 4 * 16), 61, 61]
                (by simp [stripWs, List.filter_cons, f2w, hpadw])]
              rw [if_pos (by simp)]
              rw [show dropPad [61, alpha (b1 % 4 * 16), 61, 61] =
                  [61, alpha (b1 % 4 * 16)] from by
                simp [dropPad, dropPad1, List.getLast?, List.dropLast, f2ne]]
              exact b64Decode_none_of_mem _ 61 (by simp) rfl
            · have hvBf : isB64 v = false := Bool.eq_false_iff.mpr hvB
              refine Or.inl ?_
              rw [atob_eval_eq _ [v, alpha (b1 % 4 * 16), 61, 61]
                (by simp [stripWs, List.filter_cons, hvWf, f2w, hpadw])]
              rw [if_pos (by simp)]
              rw [show dropPad [v, alpha (b1 % 4 * 16), 61, 61] =
                  [v, alpha (b1 % 4 * 16)] from by
                simp [dropPad, dropPad1, List.getLast?, List.dropLast, f2ne, hv61]]
              exact b64Decode_none_of_mem _ v (by simp) hvBf
      · -- p = 1, old char is alpha (b1 % 4 * 16)
        simp only [List.getD_cons_succ, List.getD_cons_zero] at hv
        have hset : ([alpha (b1 / 4), alpha (b1 % 4 * 16), 61, 61] : List Nat).set 1 v =
            [alpha (b1 / 4), v, 61, 61] := rfl
        rw [hset]
        by_cases hvB : isB64 v = true
        · have hvne61 := isB64_ne_pad v hvB
          have hvw := isB64_not_ws v hvB
          have hune : b64Val v ≠ b1 % 4 * 16 :=
            fun he => hv (by rw [← alpha_b64Val v hvB, he])
          have hulb := b64Val_lt v hvB
          have heval : atobBytes [alpha (b1 / 4), v, 61, 61] =
              some [b1 / 4 * 4 + b64Val v / 16] := by
            rw [atob_eval_eq _ [alpha (b1 / 4), v, 61, 61]
              (by simp [stripWs, List.filter_cons, hvw, f1w, hpadw])]
            rw [if_pos (by simp)]
            rw [show dropPad [alpha (b1 / 4), v, 61, 61] = [alpha (b1 / 4), v] from by
              simp [dropPad, dropPad1, List.getLast?, List.dropLast, f1ne, hvne61]]
            rw [b64Decode_no_pad _ (by simp) (by simp [List.all_cons, hvB, f1b])]
            simp [decode64, f1v]
          by_cases htb : b64Val v / 16 = b1 % 4
          · refine Or.inr (Or.inl ?_)
            rw [heval, htb]
            rw [show b1 / 4 * 4 + b1 % 4 = b1 from by omega]
          · refine Or.inr (Or.inr (Or.inl
              ⟨[], [b1], [b1 / 4 * 4 + b64Val v / 16], [], by simp, by rw [heval]; simp,
               by simp, by simp, ?_⟩))
            intro hw
            simp only [List.cons.injEq, and_true] at hw
            omega
        · by_cases hvW : isWs v = true
          · refine Or.inl ?_
            rw [atob_eval_eq _ [alpha (b1 / 4), 61, 61]
              (by simp [stripWs, List.filter_cons, hvW, f1w, hpadw])]
            rw [if_neg (by simp)]
            exact b64Decode_none_of_mem _ 61 (by simp) rfl
          · have hvWf : isWs v = false := Bool.eq_false_iff.mpr hvW
            by_cases hv61 : v = 61
            · subst hv61
              refine Or.inl ?_
              rw [atob_eval_eq _ [alpha (b1 / 4), 61, 61, 61]
                (by simp [stripWs, List.filter_cons, f1w, hpadw])]
              rw [if_pos (by simp)]
              rw [show dropPad [alpha (b1 / 4), 61, 61, 61] = [alpha (b1 / 4), 61] from by
                simp [dropPad, dropPad1, List.getLast?, List.dropLast, f1ne]]
              exact b64Decode_none_of_mem _ 61 (by simp) rfl
            · have hvBf : isB64 v = false := Bool.eq_false_iff.mpr hvB
              refine Or.inl ?_
              rw [atob_eval_eq _ [alpha (b1 / 4), v, 61, 61]
                (by simp [stripWs, List.filter_cons, hvWf, f1w, hpadw])]
              rw [if_pos (by simp)]
              rw [show dropPad [alpha (b1 / 4), v, 61, 61] = [alpha (b1 / 4), v] from by
                simp [dropPad, dropPad1, List.getLast?, List.dropLast, f1ne, hv61]]
              exact b64Decode_none_of_mem _ v (by simp) hvBf
      · -- p = 2, old char is the first padding character
        simp only [List.getD_cons_succ, List.getD_cons_zero] at hv
        have hset : ([alpha (b1 / 4), alpha (b1 % 4 * 16), 61, 61] : List Nat).set 2 v =
            [alpha (b1 / 4), alpha (b1 % 4 * 16), v, 61] := rfl
        rw [hset]
        by_cases hvB : isB64 v = true
        · have hvne61 := isB64_ne_pad v hvB
          have hvw := isB64_not_ws v hvB
          refine Or.inr (Or.inr (Or.inr ⟨[b1, b64Val v / 4], ?_, Or.inl (by simp)⟩))
          rw [atob_eval_eq _ [alpha (b1 / 4), alpha (b1 % 4 * 16), v, 61]
            (by simp [stripWs, List.filter_cons, hvw, f1w, f2w, hpadw])]
          rw [if_pos (by simp)]
          rw [show dropPad [alpha (b1 / 4), alpha (b1 % 4 * 16), v, 61] =
              [alpha (b1 / 4), alpha (b1 % 4 * 16), v] from by
            simp [dropPad, dropPad1, List.getLast?, List.dropLast, hvne61]]
          rw [b64Decode_no_pad _ (by simp) (by simp [List.all_cons, hvB, f1b, f2b])]
          simp only [List.map_cons, List.map_nil, f1v, f2v, decode64]
          rw [show b1 / 4 * 4 + b1 % 4 * 16 / 16 = b1 from by omega,
              show b1 % 4 * 16 % 16 * 16 + b64Val v / 4 = b64Val v / 4 from by omega]
        · by_cases hvW : isWs v = true
          · refine Or.inl ?_
            rw [atob_eval_eq _ [alpha (b1 / 4), alpha (b1 % 4 * 16), 61]
              (by simp [stripWs, List.filter_cons, hvW, f1w, f2w, hpadw])]
            rw [if_neg (by simp)]
            exact b64Decode_none_of_mem _ 61 (by simp) rfl
          · have hvWf : isWs v = false := Bool.eq_false_iff.mpr hvW
            have hvBf : isB64 v = false := Bool.eq_false_iff.mpr hvB
            refine Or.inl ?_
            rw [atob_eval_eq _ [alpha (b1 / 4), alpha (b1 % 4 * 16), v, 61]
              (by simp [stripWs, List.filter_cons, hvWf, f1w, f2w, hpadw])]
            rw [if_pos (by simp)]
            rw [show dropPad [alpha (b1 / 4), alpha (b1 % 4 * 16), v, 61] =
                [alpha (b1 / 4), alpha (b1 % 4 * 16), v] from by
              simp [dropPad, dropPad1, List.getLast?, List.dropLast, hv]]
            exact b64Decode_none_of_mem _ v (by simp) hvBf
      · -- p = 3, old char is the second padding character
        simp only [List.getD_cons_succ, List.getD_cons_zero] at hv
        have hset : ([alpha (b1 / 4), alpha (b1 % 4 * 16), 61, 61] : List Nat).set 3 v =
            [alpha (b1 / 4), alpha (b1 % 4 * 16), 61, v] := rfl
        rw [hset]
        by_cases hvW : isWs v = true
        · refine Or.inl ?_
          rw [atob_eval_eq _ [alpha (b1 / 4), alpha (b1 % 4 * 16), 61]
            (by simp [stripWs, List.filter_cons, hvW, f1w, f2w, hpadw])]
          rw [if_neg (by simp)]
          exact b64Decode_none_of_mem _ 61 (by simp) rfl
        · have hvWf : isWs v = false := Bool.eq_false_iff.mpr hvW
          refine Or.inl ?_
          rw [atob_eval_eq _ [alpha (b1 / 4), alpha (b1 % 4 * 16), 61, v]
            (by simp [stripWs, List.filter_cons, hvWf, f1w, f2w, hpadw])]
          rw [if_pos (by simp)]
          rw [show dropPad [alpha (b1 / 4), alpha (b1 % 4 * 16), 61, v] =
              [alpha (b1 / 4), alpha (b1 % 4 * 16), 61, v] from by
            simp [dropPad, dropPad1, List.getLast?, List.dropLast, hv]]
          exact b64Decode_none_of_mem _ 61 (by simp) rfl
  | h2 b1 b2 =>
      intro h p v hp hv
      have hb1 : b1 < 256 := h b1 (by simp)
      have hb2 : b2 < 256 := h b2 (by simp)
      obtain ⟨f1w, f1b, f1v, f1ne, _⟩ := alpha_facts (b1 / 4) (by omega)
      obtain ⟨f2w, f2b, f2v, f2ne, _⟩ := alpha_facts (b1 % 4 * 16 + b2 / 16) (by omega)
      obtain ⟨f3w, f3b, f3v, f3ne, _⟩ := alpha_facts (b2 % 16 * 4) (by omega)
      simp only [btoaBytes] at hp hv ⊢
      simp only [List.length_cons, List.length_nil] at hp
      have hp4 : p < 4 := by omega
      have hpadw : isWs 61 = false := rfl
      interval_cases p
      · -- p = 0, old char is alpha (b1 / 4)
        simp only [List.getD_cons_zero] at hv
        have hset : ([alpha (b1 / 4), alpha (b1 % 4 * 16 + b2 / 16), alpha (b2 % 16 * 4),
            61] : List Nat).set 0 v =
            [v, alpha (b1 % 4 * 16 + b2 / 16), alpha (b2 % 16 * 4), 61] := rfl
        rw [hset]
        by_cases hvB : isB64 v = true
        · have hvne61 := isB64_ne_pad v hvB
          have hvw := isB64_not_ws v hvB
          have hune : b64Val v ≠ b1 / 4 := fun he => hv (by rw [← alpha_b64Val v hvB, he])
          have hulb := b64Val_lt v hvB
          refine Or.inr (Or.inr (Or.inl
            ⟨[], [b1, b2], [b64Val v * 4 + b1 % 4, b2], [], by simp, ?_, by simp, by simp, ?_⟩))
          · rw [atob_eval_eq _ [v, alpha (b1 % 4 * 16 + b2 / 16), alpha (b2 % 16 * 4), 61]
              (by simp [stripWs, List.filter_cons, hvw, f2w, f3w, hpadw])]
            rw [if_pos (by simp)]
            rw [show dropPad [v, alpha (b1 % 4 * 16 + b2 / 16), alpha (b2 % 16 * 4), 61] =
                [v, alpha (b1 % 4 * 16 + b2 / 16), alpha (b2 % 16 * 4)] from by
              simp [dropPad, dropPad1, List.getLast?, List.dropLast, f3ne]]
            rw [b64Decode_no_pad _ (by simp) (by simp [List.all_cons, hvB, f2b, f3b])]
            simp only [List.map_cons, List.map_nil, f2v, f3v, decode64]
            rw [show (b1 % 4 * 16 + b2 / 16) / 16 = b1 % 4 from by omega,
                show (b1 % 4 * 16 + b2 / 16) % 16 * 16 + b2 % 16 * 4 / 4 = b2 from by omega]
            simp
          · intro hw
            have e0 := congrArg (fun l => l.getD 0 0) hw
            simp only [List.getD_cons_zero] at e0
            omega
        · by_cases hvW : isWs v = true
          · refine Or.inl ?_
            rw [atob_eval_eq _ [alpha (b1 % 4 * 16 + b2 / 16), alpha (b2 % 16 * 4), 61]
              (by simp [stripWs, List.filter_cons, hvW, f2w, f3w, hpadw])]
            rw [if_neg (by simp)]
            exact b64Decode_none_of_mem _ 61 (by simp) rfl
          · have hvWf : isWs v = false := Bool.eq_false_iff.mpr hvW
            have hvBf : isB64 v = false := Bool.eq_false_iff.mpr hvB
            refine Or.inl ?_
            rw [atob_eval_eq _ [v, alpha (b1 % 4 * 16 + b2 / 16), alpha (b2 % 16 * 4), 61]
              (by simp [stripWs, List.filter_cons, hvWf, f2w, f3w, hpadw])]
            rw [if_pos (by simp)]
            rw [show dropPad [v, alpha (b1 % 4 * 16 + b2 / 16), alpha (b2 % 16 * 4), 61] =
                [v, alpha (b1 % 4 * 16 + b2 / 16), alpha (b2 % 16 * 4)] from by
              simp [dropPad, dropPad1, List.getLast?, List.dropLast, f3ne]]
            exact b64Decode_none_of_mem _ v (by simp) hvBf
      · -- p = 1, old char is alpha (b1 % 4 * 16 + b2 / 16)
        simp only [List.getD_cons_succ, List.getD_cons_zero] at hv
        have hset : ([alpha (b1 / 4), alpha (b1 % 4 * 16 + b2 / 16), alpha (b2 % 16 * 4),
            61] : List Nat).set 1 v =
            [alpha (b1 / 4), v, alpha (b2 % 16 * 4), 61] := rfl
        rw [hset]
        by_cases hvB : isB64 v = true
        · have hvne61 := isB64_ne_pad v hvB
          have hvw := isB64_not_ws v hvB
          have hune : b64Val v ≠ b1 % 4 * 16 + b2 / 16 :=
            fun he => hv (by rw [← alpha_b64Val v hvB, he])
          have hulb := b64Val_lt v hvB
          refine Or.inr (Or.inr (Or.inl
            ⟨[], [b1, b2], [b1 / 4 * 4 + b64Val v / 16, b64Val v % 16 * 16 + b2 % 16], [],
             by simp, ?_, by simp, by simp, ?_⟩))
          · rw [atob_eval_eq _ [alpha (b1 / 4), v, alpha (b2 % 16 * 4), 61]
              (by simp [stripWs, List.filter_cons, hvw, f1w, f3w, hpadw])]
            rw [if_pos (by simp)]
            rw [show dropPad [alpha (b1 / 4), v, alpha (b2 % 16 * 4), 61] =
                [alpha (b1 / 4), v, alpha (b2 % 16 * 4)] from by
              simp [dropPad, dropPad1, List.getLast?, List.dropLast, f3ne]]
            rw [b64Decode_no_pad _ (by simp) (by simp [List.all_cons, hvB, f1b, f3b])]
            simp only [List.map_cons, List.map_nil, f1v, f3v, decode64]
            rw [show b2 % 16 * 4 / 4 = b2 % 16 from by omega]
            simp
          · intro hw
            have e0 := congrArg (fun l => l.getD 0 0) hw
            have e1 := congrArg (fun l => l.getD 1 0) hw
            simp only [List.getD_cons_zero, List.getD_cons_succ] at e0 e1
            omega
        · by_cases hvW : isWs v = true
          · refine Or.inl ?_
            rw [atob_eval_eq _ [alpha (b1 / 4), alpha (b2 % 16 * 4), 61]
              (by simp [stripWs, List.filter_cons, hvW, f1w, f3w, hpadw])]
            rw [if_neg (by simp)]
            exact b64Decode_none_of_mem _ 61 (by simp) rfl
          · have hvWf : isWs v = false := Bool.eq_false_iff.mpr hvW
            have hvBf : isB64 v = false := Bool.eq_false_iff.mpr hvB
            refine Or.inl ?_
            rw [atob_eval_eq _ [alpha (b1 / 4), v, alpha (b2 % 16 * 4), 61]
              (by simp [stripWs, List.filter_cons, hvWf, f1w, f3w, hpadw])]
            rw [if_pos (by simp)]
            rw [show dropPad [alpha (b1 / 4), v, alpha (b2 % 16 * 4), 61] =
                [alpha (b1 / 4), v, alpha (b2 % 16 * 4)] from by
              simp [dropPad, dropPad1, List.getLast?, List.dropLast, f3ne]]
            exact b64Decode_none_of_mem _ v (by simp) hvBf
      · -- p = 2, old char is alpha (b2 % 16 * 4)
        simp only [List.getD_cons_succ, List.getD_cons_zero] at hv
        have hset : ([alpha (b1 / 4), alpha (b1 % 4 * 16 + b2 / 16), alpha (b2 % 16 * 4),
            61] : List Nat).set 2 v =
            [alpha (b1 / 4), alpha (b1 % 4 * 16 + b2 / 16), v, 61] := rfl
        rw [hset]
        by_cases hvB : isB64 v = true
        · have hvne61 := isB64_ne_pad v hvB
          have hvw := isB64_not_ws v hvB
          have hune : b64Val v ≠ b2 % 16 * 4 :=
            fun he => hv (by rw [← alpha_b64Val v hvB, he])
          have hulb := b64Val_lt v hvB
          have heval : atobBytes [alpha (b1 / 4), alpha (b1 % 4 * 16 + b2 / 16), v, 61] =
              some [b1, b2 / 16 * 16 + b64Val v / 4] := by
            rw [atob_eval_eq _ [alpha (b1 / 4), alpha (b1 % 4 * 16 + b2 / 16), v, 61]
              (by simp [stripWs, List.filter_cons, hvw, f1w, f2w, hpadw])]
            rw [if_pos (by simp)]
            rw [show dropPad [alpha (b1 / 4), alpha (b1 % 4 * 16 + b2 / 16), v, 61] =
                [alpha (b1 / 4), alpha (b1 % 4 * 16 + b2 / 16), v] from by
              simp [dropPad, dropPad1, List.getLast?, List.dropLast, hvne61]]
            rw [b64Decode_no_pad _ (by simp) (by simp [List.all_cons, hvB, f1b, f2b])]
            simp only [List.map_cons, List.map_nil, f1v, f2v, decode64]
            rw [show b1 / 4 * 4 + (b1 % 4 * 16 + b2 / 16) / 16 = b1 from by omega,
                show (b1 % 4 * 16 + b2 / 16) % 16 * 16 = b2 / 16 * 16 from by omega]
          by_cases htb : b64Val v / 4 = b2 % 16
          · refine Or.inr (Or.inl ?_)
            rw [heval, htb]
            rw [show b2 / 16 * 16 + b2 % 16 = b2 from by omega]
          · refine Or.inr (Or.inr (Or.inl
              ⟨[], [b1, b2], [b1, b2 / 16 * 16 + b64Val v / 4], [], by simp,
               by rw [heval]; simp, by simp, by simp, ?_⟩))
            intro hw
            have e1 := congrArg (fun l => l.getD 1 0) hw
            simp only [List.getD_cons_succ, List.getD_cons_zero] at e1
            omega
        · by_cases hvW : isWs v = true
          · refine Or.inl ?_
            rw [atob_eval_eq _ [alpha (b1 / 4), alpha (b1 % 4 * 16 + b2 / 16), 61]
              (by simp [stripWs, List.filter_cons, hvW, f1w, f2w, hpadw])]
            rw [if_neg (by simp)]
            exact b64Decode_none_of_mem _ 61 (by simp) rfl
          · have hvWf : isWs v = false := Bool.eq_false_iff.mpr hvW
            have hvBf : isB64 v = false := Bool.eq_false_iff.mpr hvB
            by_cases hv61 : v = 61
            · subst hv61
              refine Or.inr (Or.inr (Or.inr ⟨[b1], ?_, Or.inr (by simp)⟩))
              rw [atob_eval_eq _ [alpha (b1 / 4), alpha (b1 % 4 * 16 + b2 / 16), 61, 61]
                (by simp [stripWs, List.filter_cons, f1w, f2w, hpadw])]
              rw [if_pos (by simp)]
              rw [show dropPad [alpha (b1 / 4), alpha (b1 % 4 * 16 + b2 / 16), 61, 61] =
                  [alpha (b1 / 4), alpha (b1 % 4 * 16 + b2 / 16)] from by
                simp [dropPad, dropPad1, List.getLast?, List.dropLast, f2ne]]
              rw [b64Decode_no_pad _ (by simp) (by simp [List.all_cons, f1b, f2b])]
              simp only [List.map_cons, List.map_nil, f1v, f2v, decode64]
              rw [show b1 / 4 * 4 + (b1 % 4 * 16 + b2 / 16) / 16 = b1 from by omega]
            · refine Or.inl ?_
              rw [atob_eval_eq _ [alpha (b1 / 4), alpha (b1 % 4 * 16 + b2 / 16), v, 61]
                (by simp [stripWs, List.filter_cons, hvWf, f1w, f2w, hpadw])]
              rw [if_pos (by simp)]
              rw [show dropPad [alpha (b1 / 4), alpha (b1 % 4 * 16 + b2 / 16), v, 61] =
                  [alpha (b1 / 4), alpha (b1 % 4 * 16 + b2 / 16), v] from by
                simp [dropPad, dropPad1, List.getLast?, List.dropLast, hv61]]
              exact b64Decode_none_of_mem _ v (by simp) hvBf
      · -- p = 3, old char is the padding character
        simp only [List.getD_cons_succ, List.getD_cons_zero] at hv
        have hset : ([alpha (b1 / 4), alpha (b1 % 4 * 16 + b2 / 16), alpha (b2 % 16 * 4),
            61] : List Nat).set 3 v =
            [alpha (b1 / 4), alpha (b1 % 4 * 16 + b2 / 16), alpha (b2 % 16 * 4), v] := rfl
        rw [hset]
        by_cases hvB : isB64 v = true
        · have hvne61 := isB64_ne_pad v hvB
          have hvw := isB64_not_ws v hvB
          refine Or.inr (Or.inr (Or.inr ⟨[b1, b2, b64Val v], ?_, Or.inl (by simp)⟩))
          rw [atob_eval_eq _
            [alpha (b1 / 4), alpha (b1 % 4 * 16 + b2 / 16), alpha (b2 % 16 * 4), v]
            (by simp [stripWs, List.filter_cons, f1w, f2w, f3w, hvw])]
          rw [if_pos (by simp)]
          rw [show dropPad
              [alpha (b1 / 4), alpha (b1 % 4 * 16 + b2 / 16), alpha (b2 % 16 * 4), v] =
              [alpha (b1 / 4), alpha (b1 % 4 * 16 + b2 / 16), alpha (b2 % 16 * 4), v] from by
            simp [dropPad, dropPad1, List.getLast?, List.dropLast, hvne61]]
          rw [b64Decode_no_pad _ (by simp) (by simp [List.all_cons, hvB, f1b, f2b, f3b])]
          simp only [List.map_cons, List.map_nil, f1v, f2v, f3v, decode64]
          rw [show b1 / 4 * 4 + (b1 % 4 * 16 + b2 / 16) / 16 = b1 from by omega,
              show (b1 % 4 * 16 + b2 / 16) % 16 * 16 + b2 % 16 * 4 / 4 = b2 from by omega,
              show b2 % 16 * 4 % 4 * 64 + b64Val v = b64Val v from by omega]
        · by_cases hvW : isWs v = true
          · refine Or.inr (Or.inl ?_)
            rw [atob_eval_eq _ [alpha (b1 / 4), alpha (b1 % 4 * 16 + b2 / 16),
                alpha (b2 % 16 * 4)]
              (by simp [stripWs, List.filter_cons, f1w, f2w, f3w, hvW])]
            rw [if_neg (by simp)]
            rw [b64Decode_no_pad _ (by simp) (by simp [List.all_cons, f1b, f2b, f3b])]
            simp only [List.map_cons, List.map_nil, f1v, f2v, f3v, decode64]
            rw [show b1 / 4 * 4 + (b1 % 4 * 16 + b2 / 16) / 16 = b1 from by omega,
                show (b1 % 4 * 16 + b2 / 16) % 16 * 16 + b2 % 16 * 4 / 4 = b2 from by omega]
          · have hvWf : isWs v = false := Bool.eq_false_iff.mpr hvW
            have hvBf : isB64 v = false := Bool.eq_false_iff.mpr hvB
            refine Or.inl ?_
            rw [atob_eval_eq _
              [alpha (b1 / 4), alpha (b1 % 4 * 16 + b2 / 16), alpha (b2 % 16 * 4), v]
              (by simp [stripWs, List.filter_cons, f1w, f2w, f3w, hvWf])]
            rw [if_pos (by simp)]
            rw [show dropPad
                [alpha (b1 / 4), alpha (b1 % 4 * 16 + b2 / 16), alpha (b2 % 16 * 4), v] =
                [alpha (b1 / 4), alpha (b1 % 4 * 16 + b2 / 16), alpha (b2 % 16 * 4), v] from by
              simp [dropPad, dropPad1, List.getLast?, List.dropLast, hv]]
            exact b64Decode_none_of_mem _ v (by simp) hvBf
  | h3 b1 b2 b3 rest ih =>
      intro h p v hp hv
      have hb1 : b1 < 256 := h b1 (by simp)
      have hb2 : b2 < 256 := h b2 (by simp)
      have hb3 : b3 < 256 := h b3 (by simp)
      have hrest : ∀ b ∈ rest, b < 256 := fun b hb => h b (by simp [hb])
      obtain ⟨f1w, f1b, f1v, f1ne, _⟩ := alpha_facts (b1 / 4) (by omega)
      obtain ⟨f2w, f2b, f2v, f2ne, _⟩ := alpha_facts (b1 % 4 * 16 + b2 / 16) (by omega)
      obtain ⟨f3w, f3b, f3v, f3ne, _⟩ := alpha_facts (b2 % 16 * 4 + b3 / 64) (by omega)
      obtain ⟨f4w, f4b, f4v, f4ne, _⟩ := alpha_facts (b3 % 64) (by omega)
      simp only [btoaBytes] at hp hv ⊢
      set c1 := alpha (b1 / 4) with hc1
      set c2 := alpha (b1 % 4 * 16 + b2 / 16) with hc2
      set c3 := alpha (b2 % 16 * 4 + b3 / 64) with hc3
      set c4 := alpha (b3 % 64) with hc4
      have hT : List.filter (fun c => !(isWs c)) (btoaBytes rest) = btoaBytes rest :=
        stripWs_btoaBytes rest hrest
      have hlm := length_btoaBytes_mod rest
      by_cases hp4 : p < 4
      · interval_cases p
        · -- p = 0, old char is c1
          simp only [List.getD_cons_zero] at hv
          have hset : (c1 :: c2 :: c3 :: c4 :: btoaBytes rest).set 0 v =
              v :: c2 :: c3 :: c4 :: btoaBytes rest := rfl
          rw [hset]
          by_cases hvB : isB64 v = true
          · have hvne61 := isB64_ne_pad v hvB
            have hvw := isB64_not_ws v hvB
            have hune : b64Val v ≠ b1 / 4 :=
              fun he => hv (by rw [← alpha_b64Val v hvB, he, hc1])
            have hulb := b64Val_lt v hvB
            refine Or.inr (Or.inr (Or.inl
              ⟨[], [b1, b2, b3],
               [b64Val v * 4 + b64Val c2 / 16, b64Val c2 % 16 * 16 + b64Val c3 / 4,
                b64Val c3 % 4 * 64 + b64Val c4], rest, by simp, ?_, by simp, by simp, ?_⟩))
            · rw [atob_chunk _ _ _ _ _ hvB f2b f3b f4b, atobBytes_btoaBytes rest hrest]
              rfl
            · intro hw
              have e0 := congrArg (fun l => l.getD 0 0) hw
              simp only [List.getD_cons_zero] at e0
              rw [f2v] at e0
              omega
          · by_cases hvW : isWs v = true
            · have hstrip : stripWs (v :: c2 :: c3 :: c4 :: btoaBytes rest) =
                  c2 :: c3 :: c4 :: btoaBytes rest := by
                simp [stripWs, List.filter_cons, hvW, f2w, f3w, f4w, hT]
              rw [atob_eval_eq _ _ hstrip]
              rw [if_neg (by simp only [List.length_cons]; omega)]
              by_cases hpad : (61 : Nat) ∈ btoaBytes rest
              · exact Or.inl (b64Decode_none_of_mem _ 61 (by simp [hpad]) rfl)
              · have hall := all_isB64_btoaBytes_of_no_pad rest hrest hpad
                have h3B := no_pad_btoaBytes_length rest hpad
                refine Or.inr (Or.inr (Or.inr
                  ⟨decode64 ((c2 :: c3 :: c4 :: btoaBytes rest).map b64Val), ?_, Or.inr ?_⟩))
                · exact b64Decode_no_pad _ (by simp only [List.length_cons]; omega)
                    (by simp only [List.all_cons, f2b, f3b, f4b, hall, Bool.true_and])
                · rw [length_decode64]
                  simp only [List.length_map, List.length_cons]
                  omega
            · have hvWf : isWs v = false := Bool.eq_false_iff.mpr hvW
              have hstrip : stripWs (v :: c2 :: c3 :: c4 :: btoaBytes rest) =
                  v :: c2 :: c3 :: c4 :: btoaBytes rest := by
                simp [stripWs, List.filter_cons, hvWf, f2w, f3w, f4w, hT]
              rw [atob_eval_eq _ _ hstrip]
              rw [if_pos (by simp only [List.length_cons]; omega)]
              by_cases hv61 : v = 61
              · subst hv61
                by_cases hr0 : rest = []
                · subst hr0
                  simp only [btoaBytes]
                  refine Or.inl ?_
                  rw [show dropPad [(61 : Nat), c2, c3, c4] = [61, c2, c3, c4] from by
                    simp [dropPad, dropPad1, List.getLast?, List.dropLast, f4ne]]
                  exact b64Decode_none_of_mem _ 61 (by simp) rfl
                · have h4r := four_le_length_btoaBytes rest hr0
                  refine Or.inl ?_
                  rw [show (61 : Nat) :: c2 :: c3 :: c4 :: btoaBytes rest =
                      [61, c2, c3, c4] ++ btoaBytes rest from rfl,
                    dropPad_append_big _ _ (by omega)]
                  exact b64Decode_none_of_mem _ 61 (by simp) rfl
              · have hvBf : isB64 v = false := Bool.eq_false_iff.mpr hvB
                exact Or.inl (b64Decode_none_of_mem _ v
                  (mem_dropPad_of_ne_pad _ v (by simp) hv61) hvBf)
        · -- p = 1, old char is c2
          simp only [List.getD_cons_succ, List.getD_cons_zero] at hv
          have hset : (c1 :: c2 :: c3 :: c4 :: btoaBytes rest).set 1 v =
              c1 :: v :: c3 :: c4 :: btoaBytes rest := rfl
          rw [hset]
          by_cases hvB : isB64 v = true
          · have hvne61 := isB64_ne_pad v hvB
            have hvw := isB64_not_ws v hvB
            have hune : b64Val v ≠ b1 % 4 * 16 + b2 / 16 :=
              fun he => hv (by rw [← alpha_b64Val v hvB, he, hc2])
            have hulb := b64Val_lt v hvB
            refine Or.inr (Or.inr (Or.inl
              ⟨[], [b1, b2, b3],
               [b64Val c1 * 4 + b64Val v / 16, b64Val v % 16 * 16 + b64Val c3 / 4,
                b64Val c3 % 4 * 64 + b64Val c4], rest, by simp, ?_, by simp, by simp, ?_⟩))
            · rw [atob_chunk _ _ _ _ _ f1b hvB f3b f4b, atobBytes_btoaBytes rest hrest]
              rfl
            · intro hw
              have e0 := congrArg (fun l => l.getD 0 0) hw
              have e1 := congrArg (fun l => l.getD 1 0) hw
              simp only [List.getD_cons_zero, List.getD_cons_succ] at e0 e1
              rw [f1v] at e0
              rw [f3v] at e1
              omega
          · by_cases hvW : isWs v = true
            · have hstrip : stripWs (c1 :: v :: c3 :: c4 :: btoaBytes rest) =
                  c1 :: c3 :: c4 :: btoaBytes rest := by
                simp [stripWs, List.filter_cons, hvW, f1w, f3w, f4w, hT]
              rw [atob_eval_eq _ _ hstrip]
              rw [if_neg (by simp only [List.length_cons]; omega)]
              by_cases hpad : (61 : Nat) ∈ btoaBytes rest
              · exact Or.inl (b64Decode_none_of_mem _ 61 (by simp [hpad]) rfl)
              · have hall := all_isB64_btoaBytes_of_no_pad rest hrest hpad
                have h3B := no_pad_btoaBytes_length rest hpad
                refine Or.inr (Or.inr (Or.inr
                  ⟨decode64 ((c1 :: c3 :: c4 :: btoaBytes rest).map b64Val), ?_, Or.inr ?_⟩))
                · exact b64Decode_no_pad _ (by simp only [List.length_cons]; omega)
                    (by simp only [List.all_cons, f1b, f3b, f4b, hall, Bool.true_and])
                · rw [length_decode64]
                  simp only [List.length_map, List.length_cons]
                  omega
            · have hvWf : isWs v = false := Bool.eq_false_iff.mpr hvW
              have hstrip : stripWs (c1 :: v :: c3 :: c4 :: btoaBytes rest) =
                  c1 :: v :: c3 :: c4 :: btoaBytes rest := by
                simp [stripWs, List.filter_cons, hvWf, f1w, f3w, f4w, hT]
              rw [atob_eval_eq _ _ hstrip]
              rw [if_pos (by simp only [List.length_cons]; omega)]
              by_cases hv61 : v = 61
              · subst hv61
                by_cases hr0 : rest = []
                · subst hr0
                  simp only [btoaBytes]
                  refine Or.inl ?_
                  rw [show dropPad [c1, (61 : Nat), c3, c4] = [c1, 61, c3, c4] from by
                    simp [dropPad, dropPad1, List.getLast?, List.dropLast, f4ne]]
                  exact b64Decode_none_of_mem _ 61 (by simp) rfl
                · have h4r := four_le_length_btoaBytes rest hr0
                  refine Or.inl ?_
                  rw [show c1 :: (61 : Nat) :: c3 :: c4 :: btoaBytes rest =
                      [c1, 61, c3, c4] ++ btoaBytes rest from rfl,
                    dropPad_append_big _ _ (by omega)]
                  exact b64Decode_none_of_mem _ 61 (by simp) rfl
              · have hvBf : isB64 v = false := Bool.eq_false_iff.mpr hvB
                exact Or.inl (b64Decode_none_of_mem _ v
                  (mem_dropPad_of_ne_pad _ v (by simp) hv61) hvBf)
        · -- p = 2, old char is c3
          simp only [List.getD_cons_succ, List.getD_cons_zero] at hv
          have hset : (c1 :: c2 :: c3 :: c4 :: btoaBytes rest).set 2 v =
              c1 :: c2 :: v :: c4 :: btoaBytes rest := rfl
          rw [hset]
          by_cases hvB : isB64 v = true
          · have hvne61 := isB64_ne_pad v hvB
            have hvw := isB64_not_ws v hvB
            have hune : b64Val v ≠ b2 % 16 * 4 + b3 / 64 :=
              fun he => hv (by rw [← alpha_b64Val v hvB, he, hc3])
            have hulb := b64Val_lt v hvB
            refine Or.inr (Or.inr (Or.inl
              ⟨[], [b1, b2, b3],
               [b64Val c1 * 4 + b64Val c2 / 16, b64Val c2 % 16 * 16 + b64Val v / 4,
                b64Val v % 4 * 64 + b64Val c4], rest, by simp, ?_, by simp, by simp, ?_⟩))
            · rw [atob_chunk _ _ _ _ _ f1b f2b hvB f4b, atobBytes_btoaBytes rest hrest]
              rfl
            · intro hw
              have e1 := congrArg (fun l => l.getD 1 0) hw
              have e2 := congrArg (fun l => l.getD 2 0) hw
              simp only [List.getD_cons_zero, List.getD_cons_succ] at e1 e2
              rw [f2v] at e1
              rw [f4v] at e2
              omega
          · by_cases hvW : isWs v = true
            · have hstrip : stripWs (c1 :: c2 :: v :: c4 :: btoaBytes rest) =
                  c1 :: c2 :: c4 :: btoaBytes rest := by
                simp [stripWs, List.filter_cons, hvW, f1w, f2w, f4w, hT]
              rw [atob_eval_eq _ _ hstrip]
              rw [if_neg (by simp only [List.length_cons]; omega)]
              by_cases hpad : (61 : Nat) ∈ btoaBytes rest
              · exact Or.inl (b64Decode_none_of_mem _ 61 (by simp [hpad]) rfl)
              · have hall := all_isB64_btoaBytes_of_no_pad rest hrest hpad
                have h3B := no_pad_btoaBytes_length rest hpad
                refine Or.inr (Or.inr (Or.inr
                  ⟨decode64 ((c1 :: c2 :: c4 :: btoaBytes rest).map b64Val), ?_, Or.inr ?_⟩))
                · exact b64Decode_no_pad _ (by simp only [List.length_cons]; omega)
                    (by simp only [List.all_cons, f1b, f2b, f4b, hall, Bool.true_and])
                · rw [length_decode64]
                  simp only [List.length_map, List.length_cons]
                  omega
            · have hvWf : isWs v = false := Bool.eq_false_iff.mpr hvW
              have hstrip : stripWs (c1 :: c2 :: v :: c4 :: btoaBytes rest) =
                  c1 :: c2 :: v :: c4 :: btoaBytes rest := by
                simp [stripWs, List.filter_cons, hvWf, f1w, f2w, f4w, hT]
              rw [atob_eval_eq _ _ hstrip]
              rw [if_pos (by simp only [List.length_cons]; omega)]
              by_cases hv61 : v = 61
              · subst hv61
                by_cases hr0 : rest = []
                · subst hr0
                  simp only [btoaBytes]
                  refine Or.inl ?_
                  rw [show dropPad [c1, c2, (61 : Nat), c4] = [c1, c2, 61, c4] from by
                    simp [dropPad, dropPad1, List.getLast?, List.dropLast, f4ne]]
                  exact b64Decode_none_of_mem _ 61 (by simp) rfl
                · have h4r := four_le_length_btoaBytes rest hr0
                  refine Or.inl ?_
                  rw [show c1 :: c2 :: (61 : Nat) :: c4 :: btoaBytes rest =
                      [c1, c2, 61, c4] ++ btoaBytes rest from rfl,
                    dropPad_append_big _ _ (by omega)]
                  exact b64Decode_none_of_mem _ 61 (by simp) rfl
              · have hvBf : isB64 v = false := Bool.eq_false_iff.mpr hvB
                exact Or.inl (b64Decode_none_of_mem _ v
                  (mem_dropPad_of_ne_pad _ v (by simp) hv61) hvBf)
        · -- p = 3, old char is c4
          simp only [List.getD_cons_succ, List.getD_cons_zero] at hv
          have hset : (c1 :: c2 :: c3 :: c4 :: btoaBytes rest).set 3 v =
              c1 :: c2 :: c3 :: v :: btoaBytes rest := rfl
          rw [hset]
          by_cases hvB : isB64 v = true
          · have hvne61 := isB64_ne_pad v hvB
            have hvw := isB64_not_ws v hvB
            have hune : b64Val v ≠ b3 % 64 :=
              fun he => hv (by rw [← alpha_b64Val v hvB, he, hc4])
            have hulb := b64Val_lt v hvB
            refine Or.inr (Or.inr (Or.inl
              ⟨[], [b1, b2, b3],
               [b64Val c1 * 4 + b64Val c2 / 16, b64Val c2 % 16 * 16 + b64Val c3 / 4,
                b64Val c3 % 4 * 64 + b64Val v], rest, by simp, ?_, by simp, by simp, ?_⟩))
            · rw [atob_chunk _ _ _ _ _ f1b f2b f3b hvB, atobBytes_btoaBytes rest hrest]
              rfl
            · intro hw
              have e2 := congrArg (fun l => l.getD 2 0) hw
              simp only [List.getD_cons_zero, List.getD_cons_succ] at e2
              rw [f3v] at e2
              omega
          · by_cases hvW : isWs v = true
            · have hstrip : stripWs (c1 :: c2 :: c3 :: v :: btoaBytes rest) =
                  c1 :: c2 :: c3 :: btoaBytes rest := by
                simp [stripWs, List.filter_cons, hvW, f1w, f2w, f3w, hT]
              rw [atob_eval_eq _ _ hstrip]
              rw [if_neg (by simp only [List.length_cons]; omega)]
              by_cases hpad : (61 : Nat) ∈ btoaBytes rest
              · exact Or.inl (b64Decode_none_of_mem _ 61 (by simp [hpad]) rfl)
              · have hall := all_isB64_btoaBytes_of_no_pad rest hrest hpad
                have h3B := no_pad_btoaBytes_length rest hpad
                refine Or.inr (Or.inr (Or.inr
                  ⟨decode64 ((c1 :: c2 :: c3 :: btoaBytes rest).map b64Val), ?_, Or.inr ?_⟩))
                · exact b64Decode_no_pad _ (by simp only [List.length_cons]; omega)
                    (by simp only [List.all_cons, f1b, f2b, f3b, hall, Bool.true_and])
                · rw [length_decode64]
                  simp only [List.length_map, List.length_cons]
                  omega
            · have hvWf : isWs v = false := Bool.eq_false_iff.mpr hvW
              have hstrip : stripWs (c1 :: c2 :: c3 :: v :: btoaBytes rest) =
                  c1 :: c2 :: c3 :: v :: btoaBytes rest := by
                simp [stripWs, List.filter_cons, hvWf, f1w, f2w, f3w, hT]
              rw [atob_eval_eq _ _ hstrip]
              rw [if_pos (by simp only [List.length_cons]; omega)]
              by_cases hr0 : rest = []
              · subst hr0
                simp only [btoaBytes]
                by_cases hv61 : v = 61
                · subst hv61
                  refine Or.inr (Or.inr (Or.inr ⟨[b1, b2], ?_, Or.inr (by simp)⟩))
                  rw [show dropPad [c1, c2, c3, (61 : Nat)] = [c1, c2, c3] from by
                    simp [dropPad, dropPad1, List.getLast?, List.dropLast, f3ne]]
                  rw [b64Decode_no_pad _ (by simp)
                    (by simp only [List.all_cons, f1b, f2b, f3b, List.all_nil, Bool.true_and])]
                  simp only [List.map_cons, List.map_nil, f1v, f2v, f3v, decode64]
                  rw [show b1 / 4 * 4 + (b1 % 4 * 16 + b2 / 16) / 16 = b1 from by omega,
                      show (b1 % 4 * 16 + b2 / 16) % 16 * 16 + (b2 % 16 * 4 + b3 / 64) / 4 = b2
                        from by omega]
                · have hvBf : isB64 v = false := Bool.eq_false_iff.mpr hvB
                  refine Or.inl ?_
                  rw [show dropPad [c1, c2, c3, v] = [c1, c2, c3, v] from by
                    simp [dropPad, dropPad1, List.getLast?, List.dropLast, hv61]]
                  exact b64Decode_none_of_mem _ v (by simp) hvBf
              · have h4r := four_le_length_btoaBytes rest hr0
                by_cases hv61 : v = 61
                · subst hv61
                  refine Or.inl ?_
                  rw [show c1 :: c2 :: c3 :: (61 : Nat) :: btoaBytes rest =
                      [c1, c2, c3, 61] ++ btoaBytes rest from rfl,
                    dropPad_append_big _ _ (by omega)]
                  exact b64Decode_none_of_mem _ 61 (by simp) rfl
                · have hvBf : isB64 v = false := Bool.eq_false_iff.mpr hvB
                  exact Or.inl (b64Decode_none_of_mem _ v
                    (mem_dropPad_of_ne_pad _ v (by simp) hv61) hvBf)
      · -- p ≥ 4: the change lies in the encoding of rest
        obtain ⟨q, rfl⟩ : ∃ q, p = q + 4 := ⟨p - 4, by omega⟩
        have hq : q < (btoaBytes rest).length := by
          simp only [List.length_cons] at hp
          omega
        have hv' : v ≠ (btoaBytes rest).getD q 0 := hv
        have hset : (c1 :: c2 :: c3 :: c4 :: btoaBytes rest).set (q + 4) v =
            c1 :: c2 :: c3 :: c4 :: (btoaBytes rest).set q v := rfl
        rw [hset, atob_chunk _ _ _ _ _ f1b f2b f3b f4b]
        have e1 : b64Val c1 * 4 + b64Val c2 / 16 = b1 := by rw [f1v, f2v]; omega
        have e2 : b64Val c2 % 16 * 16 + b64Val c3 / 4 = b2 := by rw [f2v, f3v]; omega
        have e3 : b64Val c3 % 4 * 64 + b64Val c4 = b3 := by rw [f3v, f4v]; omega
        simp only [e1, e2, e3]
        rcases ih hrest q v hq hv' with hnone | hsome |
            ⟨a, w1, w2, z, hbs, hres, hlw, hw3, hnw⟩ | ⟨d, hd, hdl⟩
        · rw [hnone]
          exact Or.inl rfl
        · rw [hsome]
          exact Or.inr (Or.inl rfl)
        · refine Or.inr (Or.inr (Or.inl ⟨b1 :: b2 :: b3 :: a, w1, w2, z, ?_, ?_, hlw, hw3, hnw⟩))
          · rw [hbs]
            rfl
          · rw [hres]
            rfl
        · refine Or.inr (Or.inr (Or.inr ⟨b1 :: b2 :: b3 :: d, by rw [hd]; rfl, ?_⟩))
          simp only [List.length_cons]
          rcases hdl with hl | hl
          · exact Or.inl (by omega)
          · exact Or.inr (by omega)

/-! ## Lemmas: the ideal AES-GCM model -/

theorem mask_length (key ivn : Nat) : ∀ i bs, (mask key ivn i bs).length = bs.length := by
  intro i bs
  induction bs generalizing i with
  | nil => rfl
  | cons b rest ih => simp [mask, ih]

theorem mask_mask (key ivn : Nat) : ∀ i bs, mask key ivn i (mask key ivn i bs) = bs := by
  intro i bs
  induction bs generalizing i with
  | nil => rfl
  | cons b rest ih =>
      simp only [mask, List.cons.injEq]
      exact ⟨Nat.xor_cancel_right _ _, ih (i + 1)⟩

theorem mask_lt (key ivn : Nat) :
    ∀ i bs, (∀ b ∈ bs, b < 256) → ∀ b ∈ mask key ivn i bs, b < 256 := by
  intro i bs
  induction bs generalizing i with
  | nil => intro _ b hb; simp [mask] at hb
  | cons x rest ih =>
      intro h b hb
      simp only [mask, List.mem_cons] at hb
      rcases hb with hb | hb
      · subst hb
        have hx : x < 2 ^ 8 := h x (by simp)
        have hk : ksByte key ivn i < 2 ^ 8 := Nat.mod_lt _ (by norm_num)
        calc x ^^^ ksByte key ivn i < 2 ^ 8 := Nat.xor_lt_two_pow hx hk
          _ = 256 := by norm_num
      · exact ih (i + 1) (fun c hc => h c (by simp [hc])) b hb

theorem natBytes_length : ∀ m k, (natBytes m k).length = m := by
  intro m
  induction m with
  | zero => intro k; rfl
  | succ m ih => intro k; simp [natBytes, ih]

theorem natBytes_lt : ∀ m k, ∀ b ∈ natBytes m k, b < 256 := by
  intro m
  induction m with
  | zero => intro k b hb; simp [natBytes] at hb
  | succ m ih =>
      intro k b hb
      simp only [natBytes, List.mem_cons] at hb
      rcases hb with hb | hb
      · subst hb; exact Nat.mod_lt _ (by norm_num)
      · exact ih (k / 256) b hb

theorem bytesNat_natBytes : ∀ m k, bytesNat (natBytes m k) = k % 256 ^ m := by
  intro m
  induction m with
  | zero => intro k; simp [natBytes, bytesNat, Nat.mod_one]
  | succ m ih =>
      intro k
      show k % 256 + 256 * bytesNat (natBytes m (k / 256)) = k % 256 ^ (m + 1)
      rw [ih (k / 256), pow_succ, mul_comm (256 ^ m) 256, Nat.mod_mul]

theorem keyBytes_length (key : Nat) : (keyBytes key).length = 32 :=
  natBytes_length 32 key

theorem keyBytes_lt (key : Nat) : ∀ b ∈ keyBytes key, b < 256 :=
  natBytes_lt 32 key

theorem keyBytes_inj (k1 k2 : Nat) (h1 : k1 < 2 ^ 256) (h2 : k2 < 2 ^ 256)
    (he : keyBytes k1 = keyBytes k2) : k1 = k2 := by
  have hb := congrArg bytesNat he
  simp only [keyBytes] at hb
  rw [bytesNat_natBytes, bytesNat_natBytes] at hb
  have hpow : (256 : Nat) ^ 32 = 2 ^ 256 := by norm_num
  rw [hpow, Nat.mod_eq_of_lt h1, Nat.mod_eq_of_lt h2] at hb
  exact hb

theorem length_gcmEncrypt (key : Nat) (iv data : List Nat) :
    (gcmEncrypt key iv data).length = 2 * data.length + 32 + iv.length := by
  simp only [gcmEncrypt, List.length_append, mask_length, keyBytes_length]
  omega

theorem mem_gcmEncrypt_lt (key : Nat) (iv data : List Nat) (hiv : ∀ b ∈ iv, b < 256)
    (hd : ∀ b ∈ data, b < 256) : ∀ b ∈ gcmEncrypt key iv data, b < 256 := by
  intro b hb
  simp only [gcmEncrypt, List.mem_append] at hb
  rcases hb with hb | (hb | hb) | hb
  · exact mask_lt key (ivNat iv) 0 data hd b hb
  · exact keyBytes_lt key b hb
  · exact hiv b hb
  · exact mask_lt key (ivNat iv) 0 data hd b hb

theorem gcmDecrypt_gcmEncrypt (key : Nat) (iv data : List Nat) :
    gcmDecrypt key iv (gcmEncrypt key iv data) = some data := by
  have hlen := length_gcmEncrypt key iv data
  have hcond : 32 + iv.length ≤ (gcmEncrypt key iv data).length ∧
      ((gcmEncrypt key iv data).length - (32 + iv.length)) % 2 = 0 := by omega
  have hn : ((gcmEncrypt key iv data).length - (32 + iv.length)) / 2 =
      (mask key (ivNat iv) 0 data).length := by
    rw [mask_length]
    omega
  show (if 32 + iv.length ≤ (gcmEncrypt key iv data).length ∧
      ((gcmEncrypt key iv data).length - (32 + iv.length)) % 2 = 0 then _ else none) = _
  rw [if_pos hcond]
  simp only [hn]
  show (if (gcmEncrypt key iv data).drop (mask key (ivNat iv) 0 data).length =
      keyBytes key ++ iv ++ (gcmEncrypt key iv data).take (mask key (ivNat iv) 0 data).length
    then some (mask key (ivNat iv) 0
      ((gcmEncrypt key iv data).take (mask key (ivNat iv) 0 data).length))
    else none) = some data
  rw [show gcmEncrypt key iv data =
      mask key (ivNat iv) 0 data ++ (keyBytes key ++ iv ++ mask key (ivNat iv) 0 data) from rfl,
    List.take_left, List.drop_left, if_pos rfl, mask_mask]

theorem set_ne_of_getD (l : List Nat) (q v : Nat) (hq : q < l.length)
    (hv : v ≠ l.getD q 0) : l.set q v ≠ l := by
  intro he
  apply hv
  have hlen2 : q < (l.set q v).length := by simpa using hq
  have h1 : (l.set q v).getD q 0 = v := by
    rw [List.getD_eq_getElem _ 0 hlen2]
    exact List.getElem_set_self hlen2
  rw [he] at h1
  exact h1.symm

/-- Evaluation of `gcmDecrypt` on any buffer split as body plus tag-sized
remainder: the result is governed by the tag comparison alone. -/
theorem gcmDecrypt_parts (key : Nat) (iv x y : List Nat)
    (hy : y.length = 32 + iv.length + x.length) :
    gcmDecrypt key iv (x ++ y) =
      if y = keyBytes key ++ iv ++ x then some (mask key (ivNat iv) 0 x) else none := by
  have hlen : (x ++ y).length = 2 * x.length + 32 + iv.length := by
    simp only [List.length_append]
    omega
  have hcond : 32 + iv.length ≤ (x ++ y).length ∧
      ((x ++ y).length - (32 + iv.length)) % 2 = 0 := by omega
  have hn : ((x ++ y).length - (32 + iv.length)) / 2 = x.length := by omega
  show (if 32 + iv.length ≤ (x ++ y).length ∧
      ((x ++ y).length - (32 + iv.length)) % 2 = 0 then _ else none) = _
  rw [if_pos hcond]
  simp only [hn]
  rw [List.take_left, List.drop_left]

theorem gcmDecrypt_wrong_key (key key2 : Nat) (iv data : List Nat)
    (h1 : key < 2 ^ 256) (h2 : key2 < 2 ^ 256) (hne : key2 ≠ key) :
    gcmDecrypt key2 iv (gcmEncrypt key iv data) = none := by
  rw [show gcmEncrypt key iv data = mask key (ivNat iv) 0 data ++
      (keyBytes key ++ iv ++ mask key (ivNat iv) 0 data) from rfl,
    gcmDecrypt_parts key2 iv _ _ (by simp [List.length_append, keyBytes_length]; omega),
    if_neg]
  intro he
  have h3 := List.append_inj he (by simp [List.length_append, keyBytes_length])
  have h4 := List.append_inj h3.1 (by simp [keyBytes_length])
  exact hne (keyBytes_inj key key2 h1 h2 h4.1).symm

theorem gcmDecrypt_wrong_iv (key : Nat) (iv2 iv data : List Nat)
    (hlen2 : iv2.length = iv.length) (hne : iv ≠ iv2) :
    gcmDecrypt key iv2 (gcmEncrypt key iv data) = none := by
  rw [show gcmEncrypt key iv data = mask key (ivNat iv) 0 data ++
      (keyBytes key ++ iv ++ mask key (ivNat iv) 0 data) from rfl,
    gcmDecrypt_parts key iv2 _ _
      (by simp [List.length_append, keyBytes_length, hlen2]; omega),
    if_neg]
  intro he
  have h3 := List.append_inj he (by simp [List.length_append, keyBytes_length, hlen2])
  have h4 := List.append_inj h3.1 (by simp [keyBytes_length])
  exact hne h4.2

theorem takeAppendEq (x y : List Nat) (k : Nat) (h : k = x.length) :
    (x ++ y).take k = x := by
  subst h
  exact List.take_left x y

theorem dropAppendEq (x y : List Nat) (k : Nat) (h : k = x.length) :
    (x ++ y).drop k = y := by
  subst h
  exact List.drop_left x y

/-- `gcmDecrypt` on the split of any decoded buffer whose length cannot be
12 + body + 44 + body: the guard rejects it. -/
theorem gcmDecrypt_wrong_length (key : Nat) (c : List Nat)
    (h : c.length < 56 ∨ (c.length - 56) % 2 = 1) :
    gcmDecrypt key (c.take 12) (c.drop 12) = none := by
  have hno : ¬(32 + (c.take 12).length ≤ (c.drop 12).length ∧
      ((c.drop 12).length - (32 + (c.take 12).length)) % 2 = 0) := by
    simp only [List.length_take, List.length_drop]
    omega
  show (if 32 + (c.take 12).length ≤ (c.drop 12).length ∧
      ((c.drop 12).length - (32 + (c.take 12).length)) % 2 = 0
    then _ else none) = none
  rw [if_neg hno]

/-- `gcmDecrypt` rejects any buffer that agrees with a valid encryption
outside one contiguous window of at most three bytes but differs inside it:
the two copies of the nonce (respectively of the masked body) that a valid
buffer must carry are at least 44 positions apart, so a short window cannot
alter both, and the authentication comparison fails. -/
theorem gcmDecrypt_window (key : Nat) (iv data a w1 w2 z : List Nat)
    (hsplit : iv ++ gcmEncrypt key iv data = a ++ w1 ++ z)
    (hlen : w1.length = w2.length) (hw : w1.length ≤ 3) (hne : w1 ≠ w2)
    (hiv : iv.length = 12) :
    gcmDecrypt key ((a ++ w2 ++ z).take 12) ((a ++ w2 ++ z).drop 12) = none := by
  have hmlen : (mask key (ivNat iv) 0 data).length = data.length :=
    mask_length key (ivNat iv) 0 data
  have hkb : (keyBytes key).length = 32 := keyBytes_length key
  have hglen : (gcmEncrypt key iv data).length = 2 * data.length + 44 := by
    have := length_gcmEncrypt key iv data
    omega
  have hslen := congrArg List.length hsplit
  simp only [List.length_append] at hslen
  have hc'len : (a ++ w2 ++ z).length = 56 + 2 * data.length := by
    simp only [List.length_append]
    omega
  have hivlen : ((a ++ w2 ++ z).take 12).length = 12 := by
    rw [List.length_take]
    omega
  have hablen : (((a ++ w2 ++ z).drop 12).take data.length).length = data.length := by
    rw [List.length_take, List.length_drop]
    omega
  have hE' : (a ++ w2 ++ z).drop 12 =
      ((a ++ w2 ++ z).drop 12).take data.length ++
        ((a ++ w2 ++ z).drop 12).drop data.length :=
    (List.take_append_drop _ _).symm
  have hy : (((a ++ w2 ++ z).drop 12).drop data.length).length =
      32 + ((a ++ w2 ++ z).take 12).length +
        (((a ++ w2 ++ z).drop 12).take data.length).length := by
    simp only [List.length_drop, List.length_take]
    omega
  rw [hE', gcmDecrypt_parts key _ _ _ hy, if_neg]
  intro heq
  have e1 : a ++ w2 ++ z = (a ++ w2 ++ z).take 12 ++ (a ++ w2 ++ z).drop 12 :=
    (List.take_append_drop _ _).symm
  have e2 : (a ++ w2 ++ z).drop 12 =
      ((a ++ w2 ++ z).drop 12).take data.length ++
        (keyBytes key ++ (a ++ w2 ++ z).take 12 ++
          ((a ++ w2 ++ z).drop 12).take data.length) := by
    conv_lhs => rw [hE']
    rw [heq]
  have hc'eq : a ++ w2 ++ z =
      (a ++ w2 ++ z).take 12 ++ (((a ++ w2 ++ z).drop 12).take data.length ++
        (keyBytes key ++ (a ++ w2 ++ z).take 12 ++
          ((a ++ w2 ++ z).drop 12).take data.length)) :=
    e1.trans (congrArg ((a ++ w2 ++ z).take 12 ++ ·) e2)
  have hshape : iv ++ gcmEncrypt key iv data =
      (iv ++ mask key (ivNat iv) 0 data) ++
        (keyBytes key ++ iv ++ mask key (ivNat iv) 0 data) := by
    simp [gcmEncrypt, List.append_assoc]
  have hq : (a ++ w2 ++ z).take 12 ++ ((a ++ w2 ++ z).drop 12).take data.length =
      iv ++ mask key (ivNat iv) 0 data := by
    rcases le_or_lt (12 + data.length) a.length with hA | hA
    · have t1 : (a ++ w2 ++ z).take (12 + data.length) = a.take (12 + data.length) := by
        rw [List.append_assoc, List.take_append_of_le_length hA]
      have t2 : (a ++ w1 ++ z).take (12 + data.length) = a.take (12 + data.length) := by
        rw [List.append_assoc, List.take_append_of_le_length hA]
      have t3 : (iv ++ gcmEncrypt key iv data).take (12 + data.length) =
          iv ++ mask key (ivNat iv) 0 data := by
        rw [hshape]
        exact takeAppendEq _ _ _ (by simp [List.length_append, hmlen, hiv])
      have t4 : (a ++ w2 ++ z).take (12 + data.length) =
          (a ++ w2 ++ z).take 12 ++ ((a ++ w2 ++ z).drop 12).take data.length := by
        conv_lhs => rw [hc'eq]
        rw [← List.append_assoc]
        exact takeAppendEq _ _ _ (by rw [List.length_append, hivlen, hablen])
      rw [← t4, t1, ← t2, ← hsplit, t3]
    · have d1 : (a ++ w2 ++ z).drop (44 + data.length) =
          z.drop (44 + data.length - (a.length + w1.length)) := by
        rw [dropAppendGe (a ++ w2) z _ (by rw [List.length_append]; omega),
          List.length_append, hlen]
      have d2 : (a ++ w1 ++ z).drop (44 + data.length) =
          z.drop (44 + data.length - (a.length + w1.length)) := by
        rw [dropAppendGe (a ++ w1) z _ (by rw [List.length_append]; omega),
          List.length_append]
      have d3 : (iv ++ gcmEncrypt key iv data).drop (44 + data.length) =
          iv ++ mask key (ivNat iv) 0 data := by
        have hshape2 : iv ++ gcmEncrypt key iv data =
            ((iv ++ mask key (ivNat iv) 0 data) ++ keyBytes key) ++
              (iv ++ mask key (ivNat iv) 0 data) := by
          simp [gcmEncrypt, List.append_assoc]
        rw [hshape2]
        exact dropAppendEq _ _ _
          (by simp only [List.length_append, hmlen, hiv, hkb]; omega)
      have d4 : (a ++ w2 ++ z).drop (44 + data.length) =
          (a ++ w2 ++ z).take 12 ++ ((a ++ w2 ++ z).drop 12).take data.length := by
        conv_lhs => rw [hc'eq]
        rw [show (a ++ w2 ++ z).take 12 ++ (((a ++ w2 ++ z).drop 12).take data.length ++
            (keyBytes key ++ (a ++ w2 ++ z).take 12 ++
              ((a ++ w2 ++ z).drop 12).take data.length)) =
          (((a ++ w2 ++ z).take 12 ++ ((a ++ w2 ++ z).drop 12).take data.length) ++
            keyBytes key) ++
            ((a ++ w2 ++ z).take 12 ++ ((a ++ w2 ++ z).drop 12).take data.length) from by
          simp [List.append_assoc]]
        exact dropAppendEq _ _ _
          (by simp only [List.length_append, hivlen, hablen, hkb]; omega)
      rw [← d4, d1, ← d2, ← hsplit, d3]
  have hcomp := List.append_inj hq (by rw [hivlen, hiv])
  have hc'full : a ++ w2 ++ z = iv ++ gcmEncrypt key iv data := by
    rw [hc'eq, hcomp.1, hcomp.2]
    simp [gcmEncrypt, List.append_assoc]
  rw [hsplit] at hc'full
  rw [List.append_assoc, List.append_assoc] at hc'full
  have hzz := List.append_cancel_left hc'full
  have hfin := List.append_inj hzz hlen.symm
  exact hne hfin.1.symm


theorem gcmDecrypt_tampered (key : Nat) (iv data : List Nat) (q v : Nat)
    (hq : q < (gcmEncrypt key iv data).length)
    (hv : v ≠ (gcmEncrypt key iv data).getD q 0) :
    gcmDecrypt key iv ((gcmEncrypt key iv data).set q v) = none := by
  have hE : gcmEncrypt key iv data = mask key (ivNat iv) 0 data ++
      (keyBytes key ++ iv ++ mask key (ivNat iv) 0 data) := rfl
  rw [hE] at hq hv ⊢
  rcases Nat.lt_or_ge q (mask key (ivNat iv) 0 data).length with hq2 | hq2
  · rw [List.set_append_left q v hq2,
      gcmDecrypt_parts key iv _ _
        (by simp [List.length_append, keyBytes_length, List.length_set]; omega),
      if_neg]
    intro he
    have h3 := List.append_cancel_left he
    rw [List.getD_append _ _ 0 q hq2] at hv
    exact set_ne_of_getD _ q v hq2 hv h3.symm
  · rw [List.set_append_right q v hq2,
      gcmDecrypt_parts key iv _ _
        (by simp [List.length_append, List.length_set, keyBytes_length]; omega),
      if_neg]
    intro he
    have hqT : q - (mask key (ivNat iv) 0 data).length <
        (keyBytes key ++ iv ++ mask key (ivNat iv) 0 data).length := by
      simp only [List.length_append] at hq ⊢
      omega
    rw [List.getD_append_right _ _ 0 q hq2] at hv
    exact set_ne_of_getD _ _ v hqT hv he

/-! ## Claim theorems: the message cipher -/

/-- Claim C1: for every plaintext byte string and symmetric key, decrypting
the result of `encryptMessage` under the same key returns the plaintext
(`message` is the UTF-8 byte sequence of the plaintext string, `iv` the
12-byte nonce drawn inside `encryptMessage`). -/
theorem decryptMessage_encryptMessage (message iv : List Nat) (key : Nat)
    (hm : ∀ b ∈ message, b < 256) (hiv : ∀ b ∈ iv, b < 256)
    (hlen : iv.length = 12) :
    decryptMessage (encryptMessage message iv key) key = some message := by
  have hbytes : ∀ b ∈ iv ++ gcmEncrypt key iv message, b < 256 := by
    intro b hb
    rcases List.mem_append.mp hb with hb | hb
    · exact hiv b hb
    · exact mem_gcmEncrypt_lt key iv message hiv hm b hb
  show (match atobBytes (btoaBytes (iv ++ gcmEncrypt key iv message)) with
    | none => none
    | some combined => gcmDecrypt key (combined.take 12) (combined.drop 12)) = some message
  rw [atobBytes_btoaBytes _ hbytes]
  show gcmDecrypt key ((iv ++ gcmEncrypt key iv message).take 12)
      ((iv ++ gcmEncrypt key iv message).drop 12) = some message
  rw [← hlen, List.take_left, List.drop_left]
  exact gcmDecrypt_gcmEncrypt key iv message

/-- Witness for C1 at a concrete plaintext, nonce and key. -/
theorem decryptMessage_encryptMessage_witness :
    decryptMessage (encryptMessage [72, 105] ivC 3) 3 = some [72, 105] :=
  decryptMessage_encryptMessage [72, 105] ivC 3 (by decide) (by decide) (by decide)

/-- Claim C2, amended: `decryptMessage` fails (with the `DecryptionFailed`
error, modelled by `none`) under a key different from the encryption key
(first conjunct), on a blob `atob` rejects (third conjunct), and on a
decoded blob too short to hold a nonce and tag (fourth conjunct).  The
second conjunct settles every single-byte change of the base64 blob itself:
decryption either fails, or the changed blob still decodes to the identical
nonce-and-ciphertext byte sequence — which happens exactly when the change
touches only the unused trailing bits of the final partial base64 group or
turns the lone final padding character into whitespace — and decryption then
succeeds with the original plaintext.  In no case is a partial or altered
plaintext returned.  (The claim as stated required failure for every byte
change of the blob; the identical-decode changes are the counterexample.) -/
theorem decryptMessage_authentication (message iv : List Nat) (key : Nat)
    (hm : ∀ b ∈ message, b < 256) (hiv : ∀ b ∈ iv, b < 256)
    (hlen : iv.length = 12) (hkey : key < 2 ^ 256) :
    (∀ key2, key2 < 2 ^ 256 → key2 ≠ key →
      decryptMessage (encryptMessage message iv key) key2 = none) ∧
    (∀ p v, p < (encryptMessage message iv key).length →
      v ≠ (encryptMessage message iv key).getD p 0 →
      decryptMessage ((encryptMessage message iv key).set p v) key = none ∨
      (atobBytes ((encryptMessage message iv key).set p v) =
          some (iv ++ gcmEncrypt key iv message) ∧
        decryptMessage ((encryptMessage message iv key).set p v) key = some message)) ∧
    (∀ blob, atobBytes blob = none → decryptMessage blob key = none) ∧
    (∀ blob combined, atobBytes blob = some combined → combined.length < 56 →
      decryptMessage blob key = none) := by
  have hbytes : ∀ b ∈ iv ++ gcmEncrypt key iv message, b < 256 := by
    intro b hb
    rcases List.mem_append.mp hb with hb | hb
    · exact hiv b hb
    · exact mem_gcmEncrypt_lt key iv message hiv hm b hb
  refine ⟨?_, ?_, ?_, ?_⟩
  · intro key2 hk2 hne
    show (match atobBytes (btoaBytes (iv ++ gcmEncrypt key iv message)) with
      | none => none
      | some combined => gcmDecrypt key2 (combined.take 12) (combined.drop 12)) = none
    rw [atobBytes_btoaBytes _ hbytes]
    show gcmDecrypt key2 ((iv ++ gcmEncrypt key iv message).take 12)
        ((iv ++ gcmEncrypt key iv message).drop 12) = none
    rw [← hlen, List.take_left, List.drop_left]
    exact gcmDecrypt_wrong_key key key2 iv message hkey hk2 hne
  · intro p v hp hv
    rcases atobBytes_set_classify (iv ++ gcmEncrypt key iv message) hbytes p v hp hv with
      hnone | hsome | ⟨a, w1, w2, z, hbs, hres, hlw, hw3, hnw⟩ | ⟨d, hd, hdl⟩
    · refine Or.inl ?_
      show (match atobBytes ((btoaBytes (iv ++ gcmEncrypt key iv message)).set p v) with
        | none => none
        | some combined => gcmDecrypt key (combined.take 12) (combined.drop 12)) = none
      rw [hnone]
    · refine Or.inr ⟨hsome, ?_⟩
      show (match atobBytes ((btoaBytes (iv ++ gcmEncrypt key iv message)).set p v) with
        | none => none
        | some combined => gcmDecrypt key (combined.take 12) (combined.drop 12)) =
        some message
      rw [hsome]
      show gcmDecrypt key ((iv ++ gcmEncrypt key iv message).take 12)
          ((iv ++ gcmEncrypt key iv message).drop 12) = some message
      rw [← hlen, List.take_left, List.drop_left]
      exact gcmDecrypt_gcmEncrypt key iv message
    · refine Or.inl ?_
      show (match atobBytes ((btoaBytes (iv ++ gcmEncrypt key iv message)).set p v) with
        | none => none
        | some combined => gcmDecrypt key (combined.take 12) (combined.drop 12)) = none
      rw [hres]
      show gcmDecrypt key ((a ++ w2 ++ z).take 12) ((a ++ w2 ++ z).drop 12) = none
      exact gcmDecrypt_window key iv message a w1 w2 z hbs hlw hw3 hnw hlen
    · refine Or.inl ?_
      show (match atobBytes ((btoaBytes (iv ++ gcmEncrypt key iv message)).set p v) with
        | none => none
        | some combined => gcmDecrypt key (combined.take 12) (combined.drop 12)) = none
      rw [hd]
      show gcmDecrypt key (d.take 12) (d.drop 12) = none
      apply gcmDecrypt_wrong_length
      have hgl := length_gcmEncrypt key iv message
      simp only [List.length_append, hlen] at hdl
      omega
  · intro blob hblob
    show (match atobBytes blob with
      | none => none
      | some combined => gcmDecrypt key (combined.take 12) (combined.drop 12)) = none
    rw [hblob]
  · intro blob combined hblob hshort
    show (match atobBytes blob with
      | none => none
      | some c => gcmDecrypt key (c.take 12) (c.drop 12)) = none
    rw [hblob]
    show gcmDecrypt key (combined.take 12) (combined.drop 12) = none
    have hno : ¬(32 + (combined.take 12).length ≤ (combined.drop 12).length ∧
        ((combined.drop 12).length - (32 + (combined.take 12).length)) % 2 = 0) := by
      simp only [List.length_take, List.length_drop]
      omega
    show (if 32 + (combined.take 12).length ≤ (combined.drop 12).length ∧
        ((combined.drop 12).length - (32 + (combined.take 12).length)) % 2 = 0
      then _ else none) = none
    rw [if_neg hno]

/-- Witness for C2: the blob of a concrete encryption under key 3 fails to
decrypt under key 4. -/
theorem decryptMessage_authentication_witness :
    decryptMessage (encryptMessage [72, 105] ivC 3) 4 = none :=
  (decryptMessage_authentication [72, 105] ivC 3 (by decide) (by decide) (by decide)
    (by decide)).1 4 (by decide) (by decide)

/-- Counterexample to claim C2 as stated: `blobCtampered` differs from the
valid blob `blobC` in a single flipped bit of one byte (base64 character A
becomes C), yet `decryptMessage` succeeds on it, returning the original
plaintext, because the changed bits are the unused trailing bits of the
final partial base64 group. -/
theorem decryptMessage_tamper_counterexample :
    blobCtampered ≠ blobC ∧ decryptMessage blobCtampered 2 = some [72] := by
  constructor
  · decide
  · decide

/-- Claim C7: `encryptMessage` prepends its 12-byte nonce to the ciphertext
(first conjunct: the decoded blob is the nonce followed by the AEAD output),
so two calls with distinct fresh nonces produce different blobs even for the
same plaintext and key (second conjunct). -/
theorem encryptMessage_nonce_fresh (message iv1 iv2 : List Nat) (key : Nat)
    (hm : ∀ b ∈ message, b < 256) (hiv1 : ∀ b ∈ iv1, b < 256)
    (hiv2 : ∀ b ∈ iv2, b < 256) (hlen1 : iv1.length = 12) (hlen2 : iv2.length = 12)
    (hne : iv1 ≠ iv2) :
    atobBytes (encryptMessage message iv1 key) = some (iv1 ++ gcmEncrypt key iv1 message) ∧
    encryptMessage message iv1 key ≠ encryptMessage message iv2 key := by
  have hb1 : ∀ b ∈ iv1 ++ gcmEncrypt key iv1 message, b < 256 := by
    intro b hb
    rcases List.mem_append.mp hb with hb | hb
    · exact hiv1 b hb
    · exact mem_gcmEncrypt_lt key iv1 message hiv1 hm b hb
  have hb2 : ∀ b ∈ iv2 ++ gcmEncrypt key iv2 message, b < 256 := by
    intro b hb
    rcases List.mem_append.mp hb with hb | hb
    · exact hiv2 b hb
    · exact mem_gcmEncrypt_lt key iv2 message hiv2 hm b hb
  refine ⟨atobBytes_btoaBytes _ hb1, ?_⟩
  intro he
  have hc := btoaBytes_inj _ _ hb1 hb2 he
  have h2 := List.append_inj hc (by rw [hlen1, hlen2])
  exact hne h2.1

/-- Witness for C7 at two concrete distinct nonces. -/
theorem encryptMessage_nonce_fresh_witness :
    encryptMessage [72] ivC 3 ≠ encryptMessage [72] [11, 10, 9, 8, 7, 6, 5, 4, 3, 2, 1, 0] 3 :=
  (encryptMessage_nonce_fresh [72] ivC [11, 10, 9, 8, 7, 6, 5, 4, 3, 2, 1, 0] 3
    (by decide) (by decide) (by decide) (by decide) (by decide) (by decide)).2

/-! ## Lemmas: the JavaScript string order -/

theorem jsLtb_cons_iff (x y : Nat) (xs ys : List Nat) :
    jsLtb (x :: xs) (y :: ys) = true ↔ x < y ∨ (x = y ∧ jsLtb xs ys = true) := by
  simp only [jsLtb]
  split_ifs with h1 h2
  · simp [h1]
  · have hne : x ≠ y := by omega
    simp [h1, hne]
  · have heq : x = y := by omega
    simp [h1, heq]

theorem jsLtb_asymm : ∀ a b : List Nat, jsLtb a b = true → jsLtb b a = true → False := by
  intro a
  induction a with
  | nil =>
      intro b h1 h2
      cases b with
      | nil => simp [jsLtb] at h1
      | cons y ys => simp [jsLtb] at h2
  | cons x xs ih =>
      intro b h1 h2
      cases b with
      | nil => simp [jsLtb] at h1
      | cons y ys =>
          rcases (jsLtb_cons_iff x y xs ys).mp h1 with hx | ⟨hx, hx2⟩ <;>
            rcases (jsLtb_cons_iff y x ys xs).mp h2 with hy | ⟨hy, hy2⟩
          · omega
          · omega
          · omega
          · exact ih ys hx2 hy2

theorem jsLtb_trans : ∀ a b c : List Nat,
    jsLtb a b = true → jsLtb b c = true → jsLtb a c = true := by
  intro a
  induction a with
  | nil =>
      intro b c h1 h2
      cases b with
      | nil => simp [jsLtb] at h1
      | cons y ys =>
          cases c with
          | nil => simp [jsLtb] at h2
          | cons z zs => rfl
  | cons x xs ih =>
      intro b c h1 h2
      cases b with
      | nil => simp [jsLtb] at h1
      | cons y ys =>
          cases c with
          | nil => simp [jsLtb] at h2
          | cons z zs =>
              refine (jsLtb_cons_iff x z xs zs).mpr ?_
              rcases (jsLtb_cons_iff x y xs ys).mp h1 with hx | ⟨hx, hx2⟩ <;>
                rcases (jsLtb_cons_iff y z ys zs).mp h2 with hy | ⟨hy, hy2⟩
              · exact Or.inl (by omega)
              · exact Or.inl (by omega)
              · exact Or.inl (by omega)
              · exact Or.inr ⟨by omega, ih ys zs hx2 hy2⟩

theorem jsLtb_conn : ∀ a b : List Nat, jsLtb a b = false → jsLtb b a = false → a = b := by
  intro a
  induction a with
  | nil =>
      intro b h1 h2
      cases b with
      | nil => rfl
      | cons y ys => simp [jsLtb] at h1
  | cons x xs ih =>
      intro b h1 h2
      cases b with
      | nil => simp [jsLtb] at h2
      | cons y ys =>
          have h1p : ¬(x < y ∨ (x = y ∧ jsLtb xs ys = true)) := by
            intro hc
            rw [← jsLtb_cons_iff x y xs ys] at hc
            rw [h1] at hc
            cases hc
          have h2p : ¬(y < x ∨ (y = x ∧ jsLtb ys xs = true)) := by
            intro hc
            rw [← jsLtb_cons_iff y x ys xs] at hc
            rw [h2] at hc
            cases hc
          have hxy : x = y := by omega
          subst hxy
          have t1 : jsLtb xs ys = false := by
            rcases Bool.eq_false_or_eq_true (jsLtb xs ys) with ht | ht
            · exact absurd (Or.inr ⟨rfl, ht⟩) h1p
            · exact ht
          have t2 : jsLtb ys xs = false := by
            rcases Bool.eq_false_or_eq_true (jsLtb ys xs) with ht | ht
            · exact absurd (Or.inr ⟨rfl, ht⟩) h2p
            · exact ht
          rw [ih ys t1 t2]

theorem jsLeb_eq_true_iff (a b : List Nat) : jsLeb a b = true ↔ jsLtb b a = false := by
  simp [jsLeb]

theorem jsLeb_trans (a b c : List Nat) (h1 : jsLeb a b = true) (h2 : jsLeb b c = true) :
    jsLeb a c = true := by
  rw [jsLeb_eq_true_iff] at h1 h2 ⊢
  rcases Bool.eq_false_or_eq_true (jsLtb c a) with hca | hca
  · rcases Bool.eq_false_or_eq_true (jsLtb b c) with hbc | hbc
    · exact absurd (jsLtb_trans b c a hbc hca) (by rw [h1]; intro hc; cases hc)
    · rw [jsLtb_conn b c hbc h2] at h1
      rw [h1] at hca
      cases hca
  · exact hca

theorem jsLeb_of_not_jsLeb (a b : List Nat) (h : ¬jsLeb a b = true) : jsLeb b a = true := by
  rw [jsLeb_eq_true_iff]
  have hba : jsLtb b a = true := by
    rcases Bool.eq_false_or_eq_true (jsLtb b a) with ht | hf
    · exact ht
    · exact absurd ((jsLeb_eq_true_iff a b).mpr hf) h
  rcases Bool.eq_false_or_eq_true (jsLtb a b) with ht | hf
  · exact (jsLtb_asymm a b ht hba).elim
  · exact hf

/-! ## Claim theorems: conversation identifiers -/

/-- Claim C8: `getChatId` is symmetric in its two arguments, so both
participants compute the same conversation identifier. -/
theorem getChatId_symm (a b : List Nat) : getChatId a b = getChatId b a := by
  unfold getChatId
  rcases Bool.eq_false_or_eq_true (jsLtb b a) with h1 | h1
  · have h2 : jsLtb a b = false := by
      rcases Bool.eq_false_or_eq_true (jsLtb a b) with ht | hf
      · exact (jsLtb_asymm a b ht h1).elim
      · exact hf
    simp [h1, h2]
  · rcases Bool.eq_false_or_eq_true (jsLtb a b) with h2 | h2
    · simp [h1, h2]
    · rw [jsLtb_conn a b h2 h1]

/-! ## Lemmas: the local message store -/

theorem insertById_perm (m : StoredMessage) (l : List StoredMessage) :
    (insertById m l).Perm (m :: l) := by
  induction l with
  | nil => exact List.Perm.refl _
  | cons x xs ih =>
      unfold insertById
      by_cases h : jsLeb m.id x.id = true
      · rw [if_pos h]
      · rw [if_neg h]
        exact (ih.cons x).trans (List.Perm.swap m x xs)

theorem sortById_perm (l : List StoredMessage) : (sortById l).Perm l := by
  induction l with
  | nil => exact List.Perm.refl _
  | cons x xs ih => exact (insertById_perm x (sortById xs)).trans (ih.cons x)

theorem insertByTime_perm (m : StoredMessage) (l : List StoredMessage) :
    (insertByTime m l).Perm (m :: l) := by
  induction l with
  | nil => exact List.Perm.refl _
  | cons x xs ih =>
      unfold insertByTime
      by_cases h : m.created_at ≤ x.created_at
      · rw [if_pos h]
      · rw [if_neg h]
        exact (ih.cons x).trans (List.Perm.swap m x xs)

theorem sortByTime_perm (l : List StoredMessage) : (sortByTime l).Perm l := by
  induction l with
  | nil => exact List.Perm.refl _
  | cons x xs ih => exact (insertByTime_perm x (sortByTime xs)).trans (ih.cons x)

theorem insertById_pairwise (m : StoredMessage) (l : List StoredMessage)
    (h : l.Pairwise (fun a b => jsLeb a.id b.id = true)) :
    (insertById m l).Pairwise (fun a b => jsLeb a.id b.id = true) := by
  induction l with
  | nil => simp [insertById]
  | cons x xs ih =>
      rcases List.pairwise_cons.mp h with ⟨hx, hxs⟩
      unfold insertById
      by_cases hle : jsLeb m.id x.id = true
      · rw [if_pos hle]
        refine List.pairwise_cons.mpr ⟨?_, h⟩
        intro z hz
        rcases List.mem_cons.mp hz with hz | hz
        · rw [hz]; exact hle
        · exact jsLeb_trans _ _ _ hle (hx z hz)
      · rw [if_neg hle]
        refine List.pairwise_cons.mpr ⟨?_, ih hxs⟩
        intro z hz
        rcases List.mem_cons.mp ((insertById_perm m xs).mem_iff.mp hz) with hz | hz
        · rw [hz]; exact jsLeb_of_not_jsLeb _ _ hle
        · exact hx z hz

theorem sortById_pairwise (l : List StoredMessage) :
    (sortById l).Pairwise (fun a b => jsLeb a.id b.id = true) := by
  induction l with
  | nil => simp [sortById]
  | cons x xs ih => exact insertById_pairwise x (sortById xs) ih

theorem time_le_of_lex {a b : StoredMessage}
    (h : a.created_at < b.created_at ∨
      (a.created_at = b.created_at ∧ jsLeb a.id b.id = true)) :
    a.created_at ≤ b.created_at := by
  rcases h with h | ⟨h, _⟩
  · exact le_of_lt h
  · exact le_of_eq h

theorem insertByTime_pairwise_lex (m : StoredMessage) (l : List StoredMessage)
    (hl : l.Pairwise (fun a b => a.created_at < b.created_at ∨
      (a.created_at = b.created_at ∧ jsLeb a.id b.id = true)))
    (hm : ∀ y ∈ l, m.created_at = y.created_at → jsLeb m.id y.id = true) :
    (insertByTime m l).Pairwise (fun a b => a.created_at < b.created_at ∨
      (a.created_at = b.created_at ∧ jsLeb a.id b.id = true)) := by
  induction l with
  | nil => simp [insertByTime]
  | cons x xs ih =>
      rcases List.pairwise_cons.mp hl with ⟨hx, hxs⟩
      unfold insertByTime
      by_cases hle : m.created_at ≤ x.created_at
      · rw [if_pos hle]
        refine List.pairwise_cons.mpr ⟨?_, hl⟩
        intro z hz
        rcases List.mem_cons.mp hz with hz | hz
        · rcases lt_or_eq_of_le hle with hlt | heq
          · left; rw [hz]; exact hlt
          · right
            rw [hz]
            exact ⟨heq, hm x (List.mem_cons_self x xs) heq⟩
        · have hxz := time_le_of_lex (hx z hz)
          rcases lt_or_eq_of_le (le_trans hle hxz) with hlt | heq
          · left; exact hlt
          · right; exact ⟨heq, hm z (List.mem_cons_of_mem x hz) heq⟩
      · rw [if_neg hle]
        have hxm : x.created_at < m.created_at := not_le.mp hle
        refine List.pairwise_cons.mpr
          ⟨?_, ih hxs (fun y hy he => hm y (List.mem_cons_of_mem x hy) he)⟩
        intro z hz
        rcases List.mem_cons.mp ((insertByTime_perm m xs).mem_iff.mp hz) with hz | hz
        · left; rw [hz]; exact hxm
        · exact hx z hz

theorem sortByTime_pairwise_lex (l : List StoredMessage)
    (h : l.Pairwise (fun a b => jsLeb a.id b.id = true)) :
    (sortByTime l).Pairwise (fun a b => a.created_at < b.created_at ∨
      (a.created_at = b.created_at ∧ jsLeb a.id b.id = true)) := by
  induction l with
  | nil => simp [sortByTime]
  | cons x xs ih =>
      rcases List.pairwise_cons.mp h with ⟨hx, hxs⟩
      unfold sortByTime
      refine insertByTime_pairwise_lex x (sortByTime xs) (ih hxs) ?_
      intro y hy _
      exact hx y ((sortByTime_perm xs).mem_iff.mp hy)

theorem mem_storeMessageLocally (m : StoredMessage) (l : List StoredMessage) :
    ∀ z ∈ storeMessageLocally m l, z = m ∨ z ∈ l := by
  induction l with
  | nil => intro z hz; simp [storeMessageLocally] at hz; exact Or.inl hz
  | cons x xs ih =>
      intro z hz
      unfold storeMessageLocally at hz
      by_cases h : x.id = m.id
      · rw [if_pos h] at hz
        rcases List.mem_cons.mp hz with hz | hz
        · exact Or.inl hz
        · exact Or.inr (List.mem_cons_of_mem x hz)
      · rw [if_neg h] at hz
        rcases List.mem_cons.mp hz with hz | hz
        · exact Or.inr (by rw [hz]; exact List.mem_cons_self x xs)
        · rcases ih z hz with hz | hz
          · exact Or.inl hz
          · exact Or.inr (List.mem_cons_of_mem x hz)

theorem storeMessageLocally_nodup (m : StoredMessage) (store : List StoredMessage)
    (h : (store.map (fun x => x.id)).Nodup) :
    ((storeMessageLocally m store).map (fun x => x.id)).Nodup := by
  induction store with
  | nil => simp [storeMessageLocally]
  | cons x xs ih =>
      simp only [List.map_cons, List.nodup_cons] at h
      unfold storeMessageLocally
      by_cases hid : x.id = m.id
      · rw [if_pos hid]
        simp only [List.map_cons, List.nodup_cons]
        rw [← hid]
        exact h
      · rw [if_neg hid]
        simp only [List.map_cons, List.nodup_cons]
        refine ⟨?_, ih h.2⟩
        intro hmem
        rcases List.mem_map.mp hmem with ⟨z, hz, hzid⟩
        rcases mem_storeMessageLocally m xs z hz with hz2 | hz2
        · rw [hz2] at hzid
          exact hid hzid.symm
        · exact h.1 (List.mem_map.mpr ⟨z, hz2, hzid⟩)

theorem storeMessageLocally_filter (m : StoredMessage) (store : List StoredMessage)
    (h : (store.map (fun x => x.id)).Nodup) :
    (storeMessageLocally m store).filter (fun x => x.id == m.id) = [m] := by
  induction store with
  | nil => simp [storeMessageLocally]
  | cons x xs ih =>
      simp only [List.map_cons, List.nodup_cons] at h
      unfold storeMessageLocally
      by_cases hid : x.id = m.id
      · rw [if_pos hid]
        have hxs : xs.filter (fun y => y.id == m.id) = [] := by
          refine List.filter_eq_nil_iff.mpr ?_
          intro y hy
          simp only [beq_iff_eq]
          intro hyid
          exact h.1 (by rw [← hid] at hyid; exact List.mem_map.mpr ⟨y, hy, hyid.symm ▸ rfl⟩)
        simp [List.filter_cons, hxs]
      · rw [if_neg hid]
        rw [List.filter_cons_of_neg (by simp [hid])]
        exact ih h.2

/-! ## Claim theorems: the local message store -/

/-- Claim C5, amended: `getLocalMessages` returns exactly the stored records
of the conversation (a permutation of the records whose `chat_id` matches),
sorted ascending by `created_at` with ties broken by ascending message id
(the IndexedDB primary-key order in which `index.getAll` returns records) —
not by insertion order as claimed. -/
theorem getLocalMessages_spec (chatId : List Nat) (store : List StoredMessage) :
    (getLocalMessages chatId store).Perm (store.filter (fun m => m.chat_id == chatId)) ∧
    (getLocalMessages chatId store).Pairwise (fun a b =>
      a.created_at < b.created_at ∨
        (a.created_at = b.created_at ∧ jsLeb a.id b.id = true)) := by
  constructor
  · exact (sortByTime_perm _).trans (sortById_perm _)
  · exact sortByTime_pairwise_lex _ (sortById_pairwise _)

/-- Counterexample to claim C5 as stated: two messages with equal creation
time appended in the order id `b` then id `a`; the claim predicts the
insertion order (`b` first), but `getLocalMessages` returns them in id order
(`a` first). -/
theorem getLocalMessages_tie_counterexample :
    getLocalMessages [99, 49]
        (storeMessageLocally ⟨[97], [117, 49], [117, 50], [65], 50, [99, 49]⟩
          (storeMessageLocally ⟨[98], [117, 49], [117, 50], [66], 50, [99, 49]⟩ [])) =
      [⟨[97], [117, 49], [117, 50], [65], 50, [99, 49]⟩,
       ⟨[98], [117, 49], [117, 50], [66], 50, [99, 49]⟩] ∧
    getLocalMessages [99, 49]
        (storeMessageLocally ⟨[97], [117, 49], [117, 50], [65], 50, [99, 49]⟩
          (storeMessageLocally ⟨[98], [117, 49], [117, 50], [66], 50, [99, 49]⟩ [])) ≠
      [⟨[98], [117, 49], [117, 50], [66], 50, [99, 49]⟩,
       ⟨[97], [117, 49], [117, 50], [65], 50, [99, 49]⟩] := by
  constructor
  · decide
  · decide

/-- Claim C6: `storeMessageLocally` is an idempotent upsert keyed by message
id: after storing `m` and then `m2` with the same id, the store holds
exactly one record with that id, carrying the content of `m2`, and record
ids stay free of duplicates. -/
theorem storeMessageLocally_upsert (store : List StoredMessage) (m m2 : StoredMessage)
    (hid : m2.id = m.id) (h : (store.map (fun x => x.id)).Nodup) :
    (storeMessageLocally m2 (storeMessageLocally m store)).filter
        (fun x => x.id == m.id) = [m2] ∧
    ((storeMessageLocally m2 (storeMessageLocally m store)).map (fun x => x.id)).Nodup := by
  constructor
  · have h1 := storeMessageLocally_nodup m store h
    have h2 := storeMessageLocally_filter m2 (storeMessageLocally m store) h1
    rw [hid] at h2
    exact h2
  · exact storeMessageLocally_nodup m2 _ (storeMessageLocally_nodup m store h)

/-- Witness for C6: re-storing id `a` with new content leaves one record
with the new content. -/
theorem storeMessageLocally_upsert_witness :
    (storeMessageLocally ⟨[97], [117], [118], [1], 5, [99]⟩
        (storeMessageLocally ⟨[97], [117], [118], [0], 5, [99]⟩ [])).filter
        (fun x => x.id == [97]) = [⟨[97], [117], [118], [1], 5, [99]⟩] :=
  (storeMessageLocally_upsert [] ⟨[97], [117], [118], [0], 5, [99]⟩
    ⟨[97], [117], [118], [1], 5, [99]⟩ rfl (by decide)).1

/-- Claim C10: `clearLocalMessages` empties the `messages` store of
`ChatMessagesStore` and nothing else — the identity key pair and the cached
shared secrets in `ChatCryptoStore` are unchanged. -/
theorem clearLocalMessages_frame (st : AppState) :
    (clearLocalMessages st).messagesDB = [] ∧
    (clearLocalMessages st).cryptoDB.keys = st.cryptoDB.keys ∧
    (clearLocalMessages st).cryptoDB.sharedKeys = st.cryptoDB.sharedKeys :=
  ⟨rfl, rfl, rfl⟩

/-! ## Lemmas: the shared-key cache -/

theorem lookupAssoc_putAssoc (l : List (List Nat × Nat)) (k : List Nat) (v : Nat) :
    lookupAssoc (putAssoc l k v) k = some v := by
  induction l with
  | nil => simp [putAssoc, lookupAssoc]
  | cons p rest ih =>
      obtain ⟨k1, v1⟩ := p
      unfold putAssoc
      by_cases h : k1 = k
      · rw [if_pos h]
        unfold lookupAssoc
        rw [if_pos rfl]
      · rw [if_neg h]
        unfold lookupAssoc
        rw [if_neg h]
        exact ih

/-! ## Claim theorems: key establishment -/

/-- Claim C3: `setupSharedKey` returns the cached secret when one exists,
without deriving (first conjunct); derives exactly once when none is cached
and the peer has a published public key, persisting the derived key under
the peer id (second conjunct); and after any call that produced a key, a
second call for the same peer returns the identical key from the cache
without invoking derivation (third conjunct).  The final `Bool` of the
result records whether `deriveSharedKey` ran. -/
theorem setupSharedKey_spec (peer : Profile) (kp : KeyPair)
    (profiles : List Nat → Option Nat) (ref : Option Nat) (db : CryptoDB) :
    (∀ k, getCachedSharedKey peer.id db = some k →
      setupSharedKey (some peer) (some kp) profiles ref db = (db, some k, false)) ∧
    (∀ pk, getCachedSharedKey peer.id db = none → profiles peer.id = some pk →
      setupSharedKey (some peer) (some kp) profiles ref db =
        (cacheSharedKey peer.id (deriveSharedKey kp.privateKey pk) db,
         some (deriveSharedKey kp.privateKey pk), true) ∧
      getCachedSharedKey peer.id
          (cacheSharedKey peer.id (deriveSharedKey kp.privateKey pk) db) =
        some (deriveSharedKey kp.privateKey pk)) ∧
    (∀ db2 k d, setupSharedKey (some peer) (some kp) profiles ref db = (db2, some k, d) →
      setupSharedKey (some peer) (some kp) profiles (some k) db2 = (db2, some k, false)) := by
  refine ⟨?_, ?_, ?_⟩
  · intro k hk
    simp [setupSharedKey, hk]
  · intro pk hk hpk
    constructor
    · simp [setupSharedKey, hk, hpk]
    · exact lookupAssoc_putAssoc db.sharedKeys peer.id (deriveSharedKey kp.privateKey pk)
  · intro db2 k d h
    rcases hc : getCachedSharedKey peer.id db with _ | k1
    · rcases hp : profiles peer.id with _ | pk
      · simp only [setupSharedKey, hc, hp, Prod.mk.injEq] at h
        obtain ⟨hdb, href, _⟩ := h
        subst hdb
        simp [setupSharedKey, hc, hp, href]
      · simp only [setupSharedKey, hc, hp, Prod.mk.injEq, Option.some.injEq] at h
        obtain ⟨hdb, hkey, _⟩ := h
        subst hdb
        subst hkey
        simp [setupSharedKey, getCachedSharedKey, cacheSharedKey,
          lookupAssoc_putAssoc db.sharedKeys peer.id]
    · simp only [setupSharedKey, hc, Prod.mk.injEq, Option.some.injEq] at h
      obtain ⟨hdb, hkey, _⟩ := h
      subst hdb
      subst hkey
      simp [setupSharedKey, hc]

/-- Witness for C3: a call with a cached entry for the peer returns the
cached key, leaves the state unchanged and does not derive. -/
theorem setupSharedKey_spec_witness :
    setupSharedKey (some ⟨[112], [112, 49]⟩) (some ⟨1, 2⟩) (fun _ => none) none
        ⟨none, [([112], 9)]⟩ = (⟨none, [([112], 9)]⟩, some 9, false) :=
  (setupSharedKey_spec ⟨[112], [112, 49]⟩ ⟨1, 2⟩ (fun _ => none) none
    ⟨none, [([112], 9)]⟩).1 9 (by decide)

/-- Claim C4: `initializeEncryption` is idempotent: a persisted pair is used
unchanged and nothing is generated (first conjunct); a fresh pair is
generated, persisted and published only when none exists (second conjunct);
and whatever the initial state, a second sequential call returns bit-identical
key material to the first and never generates (third conjunct). -/
theorem initializeEncryption_idempotent (uid : List Nat) (g1 g2 : KeyPair)
    (db : CryptoDB) (profiles : List Nat → Option Nat) :
    (∀ kp, db.keys = some kp →
      initializeEncryption uid g1 db profiles = (db, profiles, kp, false)) ∧
    (db.keys = none →
      initializeEncryption uid g1 db profiles =
        (storeKeyPair g1 db,
         fun u => if u = uid then some g1.publicKey else profiles u, g1, true)) ∧
    (∀ db2 p2 k2 gen2, initializeEncryption uid g1 db profiles = (db2, p2, k2, gen2) →
      initializeEncryption uid g2 db2 p2 = (db2, p2, k2, false)) := by
  refine ⟨?_, ?_, ?_⟩
  · intro kp hk
    simp [initializeEncryption, getKeyPair, hk]
  · intro hk
    simp [initializeEncryption, getKeyPair, hk]
  · intro db2 p2 k2 gen2 h
    rcases hk : db.keys with _ | kp
    · simp only [initializeEncryption, getKeyPair, hk, Prod.mk.injEq] at h
      obtain ⟨hdb, hp, hkey, _⟩ := h
      subst hdb
      subst hp
      subst hkey
      simp [initializeEncryption, getKeyPair, storeKeyPair]
    · simp only [initializeEncryption, getKeyPair, hk, Prod.mk.injEq] at h
      obtain ⟨hdb, hp, hkey, _⟩ := h
      subst hdb
      subst hp
      subst hkey
      simp [initializeEncryption, getKeyPair, hk]

/-- Witness for C4: with a persisted pair present, the call returns it
unchanged and generates nothing. -/
theorem initializeEncryption_idempotent_witness :
    initializeEncryption [117] ⟨5, 6⟩ ⟨some ⟨1, 2⟩, []⟩ (fun _ => none) =
      (⟨some ⟨1, 2⟩, []⟩, (fun _ => none), ⟨1, 2⟩, false) :=
  (initializeEncryption_idempotent [117] ⟨5, 6⟩ ⟨5, 6⟩ ⟨some ⟨1, 2⟩, []⟩
    (fun _ => none)).1 ⟨1, 2⟩ rfl

/-- Claim C9: when no shared key is held and `setupSharedKey` cannot produce
one (no cached entry and the peer has no published public key),
`handleNewMessage` does not drop the message: it stores the raw transport
content as the record content and appends the record to the rendered list. -/
theorem handleNewMessage_no_key (peer : Profile) (kp : KeyPair)
    (profiles : List Nat → Option Nat) (msg : Message) (db : CryptoDB)
    (store ui : List StoredMessage)
    (hcache : getCachedSharedKey peer.id db = none)
    (hprof : profiles peer.id = none) :
    handleNewMessage (some peer) (some kp) profiles msg none db store ui =
      (none, db, storeMessageLocally (mkStoredMessage msg msg.content) store,
       ui ++ [mkStoredMessage msg msg.content]) := by
  simp [handleNewMessage, setupSharedKey, hcache, hprof]

/-- Witness for C9 at a concrete peer with no published key and an empty
cache: the raw payload is stored and rendered. -/
theorem handleNewMessage_no_key_witness :
    handleNewMessage (some ⟨[112], [112, 49]⟩) (some ⟨1, 2⟩) (fun _ => none)
        ⟨[109, 49], [115], [114], [9, 9], 7⟩ none ⟨none, []⟩ [] [] =
      (none, ⟨none, []⟩,
       storeMessageLocally
         (mkStoredMessage ⟨[109, 49], [115], [114], [9, 9], 7⟩ [9, 9]) [],
       [mkStoredMessage ⟨[109, 49], [115], [114], [9, 9], 7⟩ [9, 9]]) := by
  have h := handleNewMessage_no_key ⟨[112], [112, 49]⟩ ⟨1, 2⟩ (fun _ => none)
    ⟨[109, 49], [115], [114], [9, 9], 7⟩ ⟨none, []⟩ [] [] (by decide) rfl
  simpa using h

end TalkSecurely
